import Mathlib

/-!
Verification of the dense fixed-size matrix core of Easy3D (`easy3d/core/mat.h`).

Modelling conventions (shallow embedding):

* The scalar template parameter `T` (instantiated by the library at `float` /
  `double`) is modelled by `ℚ`, i.e. exact arithmetic.  "Agree within floating
  tolerance" claims therefore become exact equalities on the embedded side,
  and IEEE non-finite results of a division by zero show up as a division
  whose divisor is exactly `0` (Lean's `ℚ` convention makes such a division
  return `0`; the relevant theorems expose the divisor explicitly).
* An `N × M` matrix is a total function `ℕ → ℕ → ℚ`; only the entries with
  row `< N` and column `< M` are meaningful.  All loops of the C++ source are
  embedded as folds / structural recursions over exactly the same index
  ranges, so the meaningful entries evolve exactly as in the source; entries
  outside the grid are junk and never appear in any theorem.
* `easy3d/core/constant.h` is not part of the sources provided, so the two
  numeric constants it supplies are modelled from the spec: `epsilon<T>()`
  ("a small fixed epsilon") is a parameter `eps` of every definition that
  uses it, with the double instantiation modelled as `epsD = 1/10^10`, and
  `min<T>()` (the smallest positive normal, `DBL_MIN`) is a parameter `mu`,
  modelled as `muD = 1/10^300`.
* `std::sqrt` (used only by `cholesky_decompose`) is not rational, so it is
  passed as an abstract function parameter `sq : ℚ → ℚ`; none of the
  properties proved about `cholesky_decompose` depend on its values.
* Output parameters written by the C++ functions before any result is known
  (`Mat &L`, uninitialized `Mat()` buffers) are modelled by an explicit
  initial-contents argument, so claims about overwriting can be stated.
* In `inverse` / `gauss_jordan_elimination` the pivot search leaves
  `maxr`/`maxc` uninitialized when every remaining candidate is `0` (a latent
  undefined behaviour also flagged by the spec).  The embedding resolves this
  by starting the search accumulator at `(0, 0)`; every theorem that depends
  on the pivot choice carries the hypothesis that each search actually found
  a positive candidate, which is exactly the regime where the embedding is
  faithful to the C++.
-/

/-- An `N × M` matrix of rationals; entries outside the `N × M` grid are immaterial. -/
def Mtx : Type := ℕ → ℕ → ℚ

/-- Write a single entry (`m(r, c) = v`). -/
def upd (B : Mtx) (r c : ℕ) (v : ℚ) : Mtx :=
  fun i j => if i = r ∧ j = c then v else B i j

/-- The accumulation loop `for (k = 0; k < n; ++k) acc += f k` used throughout the source. -/
def sumTo (n : ℕ) (f : ℕ → ℚ) : ℚ := (List.range n).foldl (fun a k => a + f k) 0

/-- The transposition of two indices; used to express `swap_rows` / `swap_cols`. -/
def swapFn (a b x : ℕ) : ℕ := if x = a then b else if x = b then a else x

/-- `Mat::swap_rows(a, b)`: exchange two rows. -/
def swap_rows (a b : ℕ) (B : Mtx) : Mtx := fun i j => B (swapFn a b i) j

/-- `Mat::swap_cols(a, b)`: exchange two columns. -/
def swap_cols (a b : ℕ) (B : Mtx) : Mtx := fun i j => B i (swapFn a b j)

/-- The matrix with `1` on the diagonal and `0` elsewhere (the mathematical identity,
used as the reference value in theorems). -/
def idm : Mtx := fun i j => if i = j then 1 else 0

/-- Matrix product of two matrices whose inner dimension is `n`
(`Mat::operator*`, a `k < n` accumulation loop for each output entry). -/
def matMul (n : ℕ) (A B : Mtx) : Mtx := fun i k => sumTo n (fun j => A i j * B j k)

/-- Restriction of an embedded matrix to a Mathlib `Matrix (Fin n) (Fin n)`. -/
def toM (n : ℕ) (A : Mtx) : Matrix (Fin n) (Fin n) ℚ := Matrix.of fun i j => A i.val j.val

/-- `Mat<N,M,T>::Mat(T s)`: the fill-scalar constructor; writes every entry of the
`N × M` grid, `s` on the diagonal and `0` off it, over the uninitialized buffer `m0`. -/
def Mat_of_scalar (N M : ℕ) (s : ℚ) (m0 : Mtx) : Mtx :=
  (List.range N).foldl (fun B i =>
    (List.range M).foldl (fun B2 j => upd B2 i j (if i = j then s else 0)) B) m0

/-- `Mat<N,M,T>::identity()`: writes `1` on the main diagonal and `0` elsewhere over
the uninitialized buffer `m0`. -/
def identityM (N M : ℕ) (m0 : Mtx) : Mtx :=
  (List.range N).foldl (fun B i =>
    (List.range M).foldl (fun B2 j => upd B2 i j (if i = j then 1 else 0)) B) m0

/-- `transpose(Mat<N,M>)`: writes `result(j, i) = m(i, j)` for the whole grid over the
uninitialized buffer `m0`; the result is `M × N`. -/
def transposeM (N M : ℕ) (m : Mtx) (m0 : Mtx) : Mtx :=
  (List.range N).foldl (fun B i =>
    (List.range M).foldl (fun B2 j => upd B2 j i (m i j)) B) m0

-- Basic facts about `upd`, `swapFn` and row/column writes.

theorem upd_same (B : Mtx) (r c : ℕ) (v : ℚ) : upd B r c v r c = v := by
  simp [upd]

theorem upd_ne (B : Mtx) (r c : ℕ) (v : ℚ) {i j : ℕ} (h : ¬(i = r ∧ j = c)) :
    upd B r c v i j = B i j := by
  simp [upd, h]

theorem swapFn_left (a b : ℕ) : swapFn a b a = b := by
  simp [swapFn]

theorem swapFn_right (a b : ℕ) : swapFn a b b = a := by
  unfold swapFn
  by_cases h : b = a <;> simp [h]

theorem swapFn_other (a b : ℕ) {x : ℕ} (hxa : x ≠ a) (hxb : x ≠ b) :
    swapFn a b x = x := by
  simp [swapFn, hxa, hxb]

theorem swapFn_invol (a b x : ℕ) : swapFn a b (swapFn a b x) = x := by
  unfold swapFn
  by_cases hxa : x = a
  · by_cases hba : b = a <;> simp [hxa, hba]
  · by_cases hxb : x = b
    · simp [hxa, hxb]
    · simp [hxa, hxb]

theorem swapFn_lt (a b x n : ℕ) (ha : a < n) (hb : b < n) (hx : x < n) :
    swapFn a b x < n := by
  unfold swapFn
  split_ifs <;> assumption

/-- One inner row-writing loop: filling the cells `(i, j)` for `j < M` with `w j`. -/
theorem foldl_row_apply (M i : ℕ) (w : ℕ → ℚ) (B : Mtx) (x y : ℕ) :
    ((List.range M).foldl (fun B2 j => upd B2 i j (w j)) B) x y
      = if x = i ∧ y < M then w y else B x y := by
  induction M with
  | zero => simp
  | succ m ih =>
    rw [List.range_succ, List.foldl_append]
    simp only [List.foldl_cons, List.foldl_nil]
    show (if x = i ∧ y = m then w m else List.foldl _ B (List.range m) x y) = _
    by_cases h1 : x = i ∧ y = m
    · obtain ⟨hx, hy⟩ := h1
      subst hx; subst hy
      simp
    · rw [if_neg h1, ih]
      by_cases h2 : x = i ∧ y < m
      · rw [if_pos h2, if_pos (by omega : x = i ∧ y < m + 1)]
      · rw [if_neg h2, if_neg (by omega : ¬(x = i ∧ y < m + 1))]

/-- One inner column-writing loop: filling the cells `(j, i)` for `j < M` with `w j`. -/
theorem foldl_col_apply (M i : ℕ) (w : ℕ → ℚ) (B : Mtx) (x y : ℕ) :
    ((List.range M).foldl (fun B2 j => upd B2 j i (w j)) B) x y
      = if y = i ∧ x < M then w x else B x y := by
  induction M with
  | zero => simp
  | succ m ih =>
    rw [List.range_succ, List.foldl_append]
    simp only [List.foldl_cons, List.foldl_nil]
    show (if x = m ∧ y = i then w m else List.foldl _ B (List.range m) x y) = _
    by_cases h1 : x = m ∧ y = i
    · obtain ⟨hx, hy⟩ := h1
      subst hx; subst hy
      simp
    · rw [if_neg h1, ih]
      by_cases h2 : y = i ∧ x < m
      · rw [if_pos h2, if_pos (by omega : y = i ∧ x < m + 1)]
      · rw [if_neg h2, if_neg (by omega : ¬(y = i ∧ x < m + 1))]

/-- The whole row-major grid-writing double loop. -/
theorem foldl_grid_apply (N M : ℕ) (v : ℕ → ℕ → ℚ) (m0 : Mtx) (x y : ℕ) :
    ((List.range N).foldl (fun B i =>
        (List.range M).foldl (fun B2 j => upd B2 i j (v i j)) B) m0) x y
      = if x < N ∧ y < M then v x y else m0 x y := by
  induction N with
  | zero => simp
  | succ n ih =>
    rw [List.range_succ, List.foldl_append]
    simp only [List.foldl_cons, List.foldl_nil, foldl_row_apply, ih]
    by_cases h1 : x = n
    · subst h1
      by_cases h2 : y < M <;> simp [h2]
    · by_cases h2 : x < n ∧ y < M
      · rw [if_neg (by omega : ¬(x = n ∧ y < M)), if_pos h2,
          if_pos (by omega : x < n + 1 ∧ y < M)]
      · rw [if_neg (by omega : ¬(x = n ∧ y < M)), if_neg h2,
          if_neg (by omega : ¬(x < n + 1 ∧ y < M))]

/-- The transposed grid-writing double loop (`result(j, i) = v i j`). -/
theorem foldl_grid_transpose_apply (N M : ℕ) (v : ℕ → ℕ → ℚ) (m0 : Mtx) (x y : ℕ) :
    ((List.range N).foldl (fun B i =>
        (List.range M).foldl (fun B2 j => upd B2 j i (v i j)) B) m0) x y
      = if y < N ∧ x < M then v y x else m0 x y := by
  induction N with
  | zero => simp
  | succ n ih =>
    rw [List.range_succ, List.foldl_append]
    simp only [List.foldl_cons, List.foldl_nil, foldl_col_apply, ih]
    by_cases h1 : y = n
    · subst h1
      by_cases h2 : x < M <;> simp [h2]
    · by_cases h2 : y < n ∧ x < M
      · rw [if_neg (by omega : ¬(y = n ∧ x < M)), if_pos h2,
          if_pos (by omega : y < n + 1 ∧ x < M)]
      · rw [if_neg (by omega : ¬(y = n ∧ x < M)), if_neg h2,
          if_neg (by omega : ¬(y < n + 1 ∧ x < M))]

theorem Mat_of_scalar_apply (N M : ℕ) (s : ℚ) (m0 : Mtx) {i j : ℕ}
    (hi : i < N) (hj : j < M) :
    Mat_of_scalar N M s m0 i j = if i = j then s else 0 := by
  unfold Mat_of_scalar
  rw [foldl_grid_apply, if_pos ⟨hi, hj⟩]

theorem identityM_apply (N M : ℕ) (m0 : Mtx) {i j : ℕ} (hi : i < N) (hj : j < M) :
    identityM N M m0 i j = if i = j then 1 else 0 := by
  unfold identityM
  rw [foldl_grid_apply, if_pos ⟨hi, hj⟩]

theorem transposeM_apply (N M : ℕ) (m m0 : Mtx) {i j : ℕ} (hi : i < N) (hj : j < M) :
    transposeM N M m m0 j i = m i j := by
  unfold transposeM
  rw [foldl_grid_transpose_apply, if_pos ⟨hi, hj⟩]

/-- C7: the fill-scalar constructor `Mat(s)` sets every diagonal element of the
`N × M` grid to `s` and every off-diagonal element to `0`, and `identity()`
returns the matrix with `1` on the main-diagonal positions and `0` elsewhere;
both hold for arbitrary (also non-square) `N`, `M` and independently of the
uninitialized buffer contents `m0`. -/
theorem C7_fill_and_identity (N M : ℕ) (s : ℚ) (m0 m1 : Mtx) {i j : ℕ}
    (hi : i < N) (hj : j < M) :
    Mat_of_scalar N M s m0 i j = (if i = j then s else 0)
      ∧ identityM N M m1 i j = (if i = j then 1 else 0) :=
  ⟨Mat_of_scalar_apply N M s m0 hi hj, identityM_apply N M m1 hi hj⟩

/-- Witness for C7 at a concrete non-square shape. -/
theorem C7_fill_and_identity_witness :
    (2 < 3 ∧ 2 < 4) ∧
      Mat_of_scalar 3 4 (7/2) idm 2 2 = (if 2 = 2 then (7/2 : ℚ) else 0)
      ∧ identityM 3 4 idm 2 2 = (if 2 = 2 then (1 : ℚ) else 0) :=
  ⟨⟨by omega, by omega⟩, C7_fill_and_identity 3 4 (7/2) idm idm (by omega) (by omega)⟩

/-- C8: `transpose(transpose(A))` reproduces `A` exactly, element for element, on
the whole `N × M` grid — `transpose` is a pure data rearrangement (no arithmetic
is performed, so no floating error can be introduced), for arbitrary buffer
contents `m0`, `m1` of the two intermediate results. -/
theorem C8_transpose_involution (N M : ℕ) (A m0 m1 : Mtx) {i j : ℕ}
    (hi : i < N) (hj : j < M) :
    transposeM M N (transposeM N M A m0) m1 i j = A i j := by
  have h1 : transposeM N M A m0 j i = A i j := transposeM_apply N M A m0 hi hj
  have h2 : transposeM M N (transposeM N M A m0) m1 i j
      = transposeM N M A m0 j i := transposeM_apply M N (transposeM N M A m0) m1 hj hi
  rw [h2, h1]

/-- Witness for C8 at a concrete rectangular matrix. -/
theorem C8_transpose_involution_witness :
    (1 < 2 ∧ 2 < 3) ∧
      transposeM 3 2 (transposeM 2 3 (fun i j => (i : ℚ) + 10 * j) idm) idm 1 2
        = ((1 : ℕ) : ℚ) + 10 * ((2 : ℕ) : ℚ) :=
  ⟨⟨by omega, by omega⟩,
    C8_transpose_involution 2 3 (fun i j => (i : ℚ) + 10 * j) idm idm (by omega) (by omega)⟩

-- ## Closed-form 2/3/4-dimensional specializations and constructors

/-- `determinant(Mat2)`: the closed-form cofactor expansion. -/
def determinant2 (m : Mtx) : ℚ := m 0 0 * m 1 1 - m 0 1 * m 1 0

/-- `determinant(Mat3)`: the closed-form cofactor expansion. -/
def determinant3 (m : Mtx) : ℚ :=
  m 0 0 * (m 1 1 * m 2 2 - m 2 1 * m 1 2) +
  m 0 1 * (m 2 0 * m 1 2 - m 1 0 * m 2 2) +
  m 0 2 * (m 1 0 * m 2 1 - m 2 0 * m 1 1)

/-- `determinant(Mat4)`: the closed-form cofactor expansion. -/
def determinant4 (m : Mtx) : ℚ :=
  m 0 3 * m 1 2 * m 2 1 * m 3 0 - m 0 2 * m 1 3 * m 2 1 * m 3 0 -
  m 0 3 * m 1 1 * m 2 2 * m 3 0 + m 0 1 * m 1 3 * m 2 2 * m 3 0 +
  m 0 2 * m 1 1 * m 2 3 * m 3 0 - m 0 1 * m 1 2 * m 2 3 * m 3 0 -
  m 0 3 * m 1 2 * m 2 0 * m 3 1 + m 0 2 * m 1 3 * m 2 0 * m 3 1 +
  m 0 3 * m 1 0 * m 2 2 * m 3 1 - m 0 0 * m 1 3 * m 2 2 * m 3 1 -
  m 0 2 * m 1 0 * m 2 3 * m 3 1 + m 0 0 * m 1 2 * m 2 3 * m 3 1 +
  m 0 3 * m 1 1 * m 2 0 * m 3 2 - m 0 1 * m 1 3 * m 2 0 * m 3 2 -
  m 0 3 * m 1 0 * m 2 1 * m 3 2 + m 0 0 * m 1 3 * m 2 1 * m 3 2 +
  m 0 1 * m 1 0 * m 2 3 * m 3 2 - m 0 0 * m 1 1 * m 2 3 * m 3 2 -
  m 0 2 * m 1 1 * m 2 0 * m 3 3 + m 0 1 * m 1 2 * m 2 0 * m 3 3 +
  m 0 2 * m 1 0 * m 2 1 * m 3 3 - m 0 0 * m 1 2 * m 2 1 * m 3 3 -
  m 0 1 * m 1 0 * m 2 2 * m 3 3 + m 0 0 * m 1 1 * m 2 2 * m 3 3

/-- `inverse(Mat2)`: adjugate entries, then multiplication by `1/determinant`
(no guard: on a singular input this divides by an exactly zero determinant). -/
def inverse2 (m : Mtx) : Mtx :=
  let result : Mtx := fun i j =>
    if i = 0 ∧ j = 0 then m 1 1 else if i = 0 ∧ j = 1 then -(m 0 1)
    else if i = 1 ∧ j = 0 then -(m 1 0) else if i = 1 ∧ j = 1 then m 0 0 else 0
  fun i j => result i j * (1 / determinant2 m)

/-- The `rx` factor of `Mat3::rotation(x, y, z, order)` (rotation about X), written in
terms of the cosine `c` and sine `s` of the angle: the source computes `std::cos(x)`,
`std::sin(x)`; transcendental functions are not rational, so the embedding takes the
two trigonometric values as parameters. -/
def rotX (c s : ℚ) : Mtx := fun i j =>
  if i = 0 ∧ j = 0 then 1 else if i = 0 ∧ j = 1 then 0 else if i = 0 ∧ j = 2 then 0
  else if i = 1 ∧ j = 0 then 0 else if i = 1 ∧ j = 1 then c else if i = 1 ∧ j = 2 then -s
  else if i = 2 ∧ j = 0 then 0 else if i = 2 ∧ j = 1 then s else if i = 2 ∧ j = 2 then c
  else 0

/-- The `ry` factor of `Mat3::rotation(x, y, z, order)` (rotation about Y). -/
def rotY (c s : ℚ) : Mtx := fun i j =>
  if i = 0 ∧ j = 0 then c else if i = 0 ∧ j = 1 then 0 else if i = 0 ∧ j = 2 then s
  else if i = 1 ∧ j = 0 then 0 else if i = 1 ∧ j = 1 then 1 else if i = 1 ∧ j = 2 then 0
  else if i = 2 ∧ j = 0 then -s else if i = 2 ∧ j = 1 then 0 else if i = 2 ∧ j = 2 then c
  else 0

/-- The `rz` factor of `Mat3::rotation(x, y, z, order)` (rotation about Z). -/
def rotZ (c s : ℚ) : Mtx := fun i j =>
  if i = 0 ∧ j = 0 then c else if i = 0 ∧ j = 1 then -s else if i = 0 ∧ j = 2 then 0
  else if i = 1 ∧ j = 0 then s else if i = 1 ∧ j = 1 then c else if i = 1 ∧ j = 2 then 0
  else if i = 2 ∧ j = 0 then 0 else if i = 2 ∧ j = 1 then 0 else if i = 2 ∧ j = 2 then 1
  else 0

/-- `Mat3::rotation(x, y, z, order)`: the Euler-angle rotation constructor, with the
six trigonometric values passed instead of the two transcendental evaluations per
angle, and the `switch (order)` embedded as an `if` chain (C++ `a * b * c` is
left-associated, `(a * b) * c`).  The `default:` branch logs an error (a side
effect outside the value semantics) and returns `rx * rz * ry`. -/
def rotation_euler (cx sx cy sy cz sz : ℚ) (order : ℤ) : Mtx :=
  let rx := rotX cx sx
  let ry := rotY cy sy
  let rz := rotZ cz sz
  if order = 123 then matMul 3 (matMul 3 rz ry) rx
  else if order = 132 then matMul 3 (matMul 3 ry rz) rx
  else if order = 213 then matMul 3 (matMul 3 rz rx) ry
  else if order = 231 then matMul 3 (matMul 3 rx rz) ry
  else if order = 312 then matMul 3 (matMul 3 ry rx) rz
  else if order = 321 then matMul 3 (matMul 3 rx ry) rz
  else matMul 3 (matMul 3 rx rz) ry

/-- C6 counterexample: at the angle values `x = 0`, `y = π/2`, `z = π/2`
(cosine/sine pairs `(1,0)`, `(0,1)`, `(0,1)`) and the invalid order `999`, the
constructor returns a matrix whose `(0,1)` entry is `-1`, while the composition
the claim names as the fallback — order `312`, i.e. `ry * rx * rz` — has `0`
there: the actual fallback is not the `312` composition. -/
theorem C6_counterexample :
    rotation_euler 1 0 0 1 0 1 999 0 1 = -1
      ∧ matMul 3 (matMul 3 (rotY 0 1) (rotX 1 0)) (rotZ 0 1) 0 1 = 0 := by
  constructor <;>
    norm_num [rotation_euler, matMul, sumTo, rotX, rotY, rotZ, List.range_succ]

/-- C6 (amended): for every rotation order other than the six valid ones the
Euler-angle constructor never throws or aborts: it (logs an error and) returns the
`rx * rz * ry` composition — the same composition as order `231`, not the default
order `312` composition `ry * rx * rz`. -/
theorem C6_invalid_order_fallback (cx sx cy sy cz sz : ℚ) (order : ℤ)
    (h : order ∉ ([123, 132, 213, 231, 312, 321] : List ℤ)) :
    rotation_euler cx sx cy sy cz sz order
      = matMul 3 (matMul 3 (rotX cx sx) (rotZ cz sz)) (rotY cy sy) := by
  simp only [List.mem_cons, List.mem_singleton, not_or] at h
  obtain ⟨h1, h2, h3, h4, h5, h6, h0⟩ := h
  unfold rotation_euler
  rw [if_neg h1, if_neg h2, if_neg h3, if_neg h4, if_neg h5, if_neg h6]


/-- Witness for C6 at the concrete invalid order `999`. -/
theorem C6_invalid_order_fallback_witness :
    ((999 : ℤ) ∉ ([123, 132, 213, 231, 312, 321] : List ℤ))
      ∧ rotation_euler 1 0 0 1 0 1 999
        = matMul 3 (matMul 3 (rotX 1 0) (rotZ 0 1)) (rotY 0 1) :=
  ⟨by decide, C6_invalid_order_fallback 1 0 0 1 0 1 999 (by decide)⟩

-- ## Homogeneous matrix-vector product (`operator*(Mat4, Vec<3>)`)

/-- The constructor `Vec<4,T> tmp(rhs, T(1))`: append a fourth component equal to 1. -/
def vec4_of_vec3 (v : ℕ → ℚ) : ℕ → ℚ := fun i => if i = 3 then 1 else v i

/-- `operator*(Mat4, Vec<4>)`: the plain (non-homogeneous) matrix-vector product. -/
def mat_vec_mul (n : ℕ) (m : Mtx) (v : ℕ → ℚ) : ℕ → ℚ :=
  fun i => sumTo n (fun j => m i j * v j)

/-- `operator*(Mat4, Vec<3>)` (homogeneous version): append 1, multiply by the 4×4
matrix, divide the result by its fourth component (`result /= result[3]`), return
the first three components. -/
def mat4_mul_vec3 (m : Mtx) (v : ℕ → ℚ) : ℕ → ℚ :=
  let tmp := vec4_of_vec3 v
  let r := mat_vec_mul 4 m tmp
  fun i => r i / r 3

/-- C10: the `Mat4 * Vec3` product treats the vector as a homogeneous point: each of
the three returned components is the corresponding component of `m * (v, 1)` divided
by the fourth component of `m * (v, 1)`.  When that fourth component is zero the
division is a division by exactly zero — in the library's IEEE arithmetic the result
is non-finite (Inf/NaN); in this exact embedding ℚ's division-by-zero convention
returns 0, which the second conjunct records. -/
theorem C10_homogeneous_product (m : Mtx) (v : ℕ → ℚ) {i : ℕ} (hi : i < 3) :
    mat4_mul_vec3 m v i
        = sumTo 4 (fun j => m i j * (if j = 3 then 1 else v j))
          / sumTo 4 (fun j => m 3 j * (if j = 3 then 1 else v j))
      ∧ (sumTo 4 (fun j => m 3 j * (if j = 3 then 1 else v j)) = 0 →
          mat4_mul_vec3 m v i = 0) := by
  constructor
  · rfl
  · intro h
    show mat_vec_mul 4 m (vec4_of_vec3 v) i / mat_vec_mul 4 m (vec4_of_vec3 v) 3 = 0
    have h3 : mat_vec_mul 4 m (vec4_of_vec3 v) 3 = 0 := h
    rw [h3, div_zero]

/-- Witness for C10 at a concrete matrix and vector. -/
theorem C10_homogeneous_product_witness :
    (1 < 3) ∧
      mat4_mul_vec3 idm (fun i => (i : ℚ) + 5) 1
          = sumTo 4 (fun j => idm 1 j * (if j = 3 then 1 else (j : ℚ) + 5))
            / sumTo 4 (fun j => idm 3 j * (if j = 3 then 1 else (j : ℚ) + 5)) :=
  ⟨by omega, (C10_homogeneous_product idm (fun i => (i : ℚ) + 5) (by omega)).1⟩

-- ## Cholesky decomposition (`cholesky_decompose`)

/-- State of `cholesky_decompose`: the output matrix `L`, the `spd` flag, and — as
proof instrumentation that does not influence the computation — the list `ds` of the
diagonal terms `d` in the order they are computed, each recorded at the moment just
before its square root is taken. -/
structure CholState where
  L : Mtx
  spd : Bool
  ds : List ℚ

/-- Body of the inner `k < j` loop of `cholesky_decompose`: computes
`L(j,k) = (A(j,k) - Σ_{i<k} L(k,i)·L(j,i)) / L(k,k)`, accumulates `d += s²` and
the symmetry check `spd = spd && (A(k,j) == A(j,k))` (exact equality). -/
def cholInnerStep (A : Mtx) (j : ℕ) (p : Mtx × ℚ × Bool) (k : ℕ) : Mtx × ℚ × Bool :=
  let s := sumTo k (fun i => p.1 k i * p.1 j i)
  let s2 := (A j k - s) / p.1 k k
  (upd p.1 j k s2, p.2.1 + s2 * s2, p.2.2 && decide (A k j = A j k))

/-- One iteration `j` of the outer loop of `cholesky_decompose`: the inner loop,
then `d = A(j,j) - d` is tested (`d > 0`, strict), the diagonal receives
`sqrt(d > 0 ? d : 0)` (abstract square root `sq`), and the entries right of the
diagonal are forced to zero. -/
def cholStep (N : ℕ) (A : Mtx) (sq : ℚ → ℚ) (st : CholState) (j : ℕ) : CholState :=
  let inner := (List.range j).foldl (cholInnerStep A j) (st.L, 0, st.spd)
  let d := A j j - inner.2.1
  let spd2 := inner.2.2 && decide (0 < d)
  let L2 := upd inner.1 j j (sq (if 0 < d then d else 0))
  let L3 := (List.range' (j + 1) (N - (j + 1))).foldl (fun B k => upd B j k 0) L2
  { L := L3, spd := spd2, ds := st.ds ++ [d] }

/-- `cholesky_decompose(A, L)`: `L` starts from the caller's buffer `L0`. -/
def cholesky_decompose (N : ℕ) (A L0 : Mtx) (sq : ℚ → ℚ) : CholState :=
  (List.range N).foldl (cholStep N A sq) { L := L0, spd := true, ds := [] }

/-- The inner loop of column `j` only writes row `j` of `L`. -/
theorem cholInner_row_only (A : Mtx) (j n : ℕ) (p0 : Mtx × ℚ × Bool) {x y : ℕ}
    (hx : x ≠ j) :
    ((List.range n).foldl (cholInnerStep A j) p0).1 x y = p0.1 x y := by
  induction n with
  | zero => simp
  | succ m ih =>
    rw [List.range_succ, List.foldl_append]
    simp only [List.foldl_cons, List.foldl_nil]
    show upd _ j m _ x y = _
    rw [upd_ne _ _ _ _ (by tauto), ih]

/-- The `spd` component accumulated by the inner loop of column `j` is the
conjunction of the symmetry checks of all inspected pairs. -/
theorem cholInner_bool (A : Mtx) (j n : ℕ) (p0 : Mtx × ℚ × Bool) :
    (((List.range n).foldl (cholInnerStep A j) p0).2.2 = true)
      ↔ (p0.2.2 = true ∧ ∀ k < n, A k j = A j k) := by
  induction n with
  | zero => simp
  | succ m ih =>
    rw [List.range_succ, List.foldl_append]
    simp only [List.foldl_cons, List.foldl_nil]
    show ((_ && decide (A m j = A j m)) = true) ↔ _
    rw [Bool.and_eq_true, decide_eq_true_eq, ih]
    constructor
    · rintro ⟨⟨h0, hk⟩, hm⟩
      refine ⟨h0, fun k hk2 => ?_⟩
      rcases Nat.lt_succ_iff_lt_or_eq.mp hk2 with h | h
      · exact hk k h
      · rw [h]; exact hm
    · rintro ⟨h0, hk⟩
      exact ⟨⟨h0, fun k h => hk k (by omega)⟩, hk m (by omega)⟩

/-- The trailing zero-fill loop `for (k = j+1; k < N; ++k) L(j,k) = 0`. -/
theorem foldl_rowfill_apply (len s j : ℕ) (B : Mtx) (x y : ℕ) :
    ((List.range' s len).foldl (fun B2 k => upd B2 j k 0) B) x y
      = if x = j ∧ s ≤ y ∧ y < s + len then 0 else B x y := by
  induction len generalizing s B with
  | zero => simp only [List.range', List.foldl_nil]
            rw [if_neg (by omega : ¬(x = j ∧ s ≤ y ∧ y < s + 0))]
  | succ m ih =>
    rw [List.range'_succ]
    simp only [List.foldl_cons, ih]
    by_cases h1 : x = j ∧ s + 1 ≤ y ∧ y < s + 1 + m
    · rw [if_pos h1, if_pos (by omega : x = j ∧ s ≤ y ∧ y < s + (m + 1))]
    · rw [if_neg h1]
      by_cases h2 : x = j ∧ y = s
      · rw [upd, if_pos h2, if_pos (by omega : x = j ∧ s ≤ y ∧ y < s + (m + 1))]
      · rw [upd_ne _ _ _ _ h2, if_neg (by omega : ¬(x = j ∧ s ≤ y ∧ y < s + (m + 1)))]

/-- After the first `n` columns of `cholesky_decompose`: the flag is the conjunction
of all checks so far, every recorded `d` pairs with the flag, and every processed
row has zeros right of the diagonal. -/
theorem chol_loop_invariant (N : ℕ) (A L0 : Mtx) (sq : ℚ → ℚ) (n : ℕ) :
    (((List.range n).foldl (cholStep N A sq) ⟨L0, true, []⟩).spd = true
        ↔ ((∀ j < n, ∀ k < j, A k j = A j k)
            ∧ ∀ d ∈ ((List.range n).foldl (cholStep N A sq) ⟨L0, true, []⟩).ds, 0 < d))
      ∧ (∀ j < n, ∀ k, j < k → k < N →
          ((List.range n).foldl (cholStep N A sq) ⟨L0, true, []⟩).L j k = 0) := by
  induction n with
  | zero => simp
  | succ m ih =>
    rw [List.range_succ, List.foldl_append]
    simp only [List.foldl_cons, List.foldl_nil]
    obtain ⟨ihb, ihz⟩ := ih
    set st := (List.range m).foldl (cholStep N A sq) ⟨L0, true, []⟩ with hst
    constructor
    · show ((_ && decide _) = true) ↔ _
      rw [Bool.and_eq_true, decide_eq_true_eq, cholInner_bool, ihb]
      show _ ↔ _ ∧ ∀ d ∈ st.ds ++ [_], 0 < d
      constructor
      · rintro ⟨⟨⟨hsym, hds⟩, hrow⟩, hd⟩
        refine ⟨fun j hj => ?_, fun d hd2 => ?_⟩
        · rcases Nat.lt_succ_iff_lt_or_eq.mp hj with h | h
          · exact hsym j h
          · rw [h]; exact hrow
        · rcases List.mem_append.mp hd2 with h | h
          · exact hds d h
          · rw [List.mem_singleton.mp h]; exact hd
      · rintro ⟨hsym, hds⟩
        refine ⟨⟨⟨fun j hj => hsym j (by omega), fun d hd2 =>
            hds d (List.mem_append_left _ hd2)⟩,
            hsym m (by omega)⟩, hds _ (List.mem_append_right _ (List.mem_singleton.mpr rfl))⟩
    · intro j hj k hjk hkN
      show ((List.range' (m + 1) (N - (m + 1))).foldl (fun B2 k2 => upd B2 m k2 0) _) j k = 0
      rcases Nat.lt_succ_iff_lt_or_eq.mp hj with hjm | hjm
      · rw [foldl_rowfill_apply, if_neg (by omega : ¬(j = m ∧ m + 1 ≤ k ∧ k < m + 1 + (N - (m + 1))))]
        rw [upd_ne _ _ _ _ (by omega : ¬(j = m ∧ k = m)), cholInner_row_only _ _ _ _ (by omega : j ≠ m)]
        exact ihz j hjm k hjk hkN
      · subst hjm
        rw [foldl_rowfill_apply, if_pos ⟨rfl, by omega, by omega⟩]

/-- C4 counterexample: for the 1×1 zero matrix — exactly symmetric, with its single
diagonal term `d = 0` satisfying the claim's `d ≥ 0` — `cholesky_decompose` returns
`false` (its check is the strict `d > 0`), so the claimed iff fails. -/
theorem C4_counterexample :
    (cholesky_decompose 1 (fun _ _ => 0) idm (fun _ => 0)).spd = false
      ∧ (cholesky_decompose 1 (fun _ _ => 0) idm (fun _ => 0)).ds = [0]
      ∧ (∀ j < 1, ∀ k < j, (fun (_ _ : ℕ) => (0 : ℚ)) k j = (fun (_ _ : ℕ) => (0 : ℚ)) j k)
      ∧ (∀ d ∈ (cholesky_decompose 1 (fun _ _ => 0) idm (fun _ => 0)).ds, 0 ≤ d) := by
  refine ⟨?_, ?_, by omega, ?_⟩ <;>
    norm_num [cholesky_decompose, cholStep, cholInnerStep, List.range_succ]

/-- C4 (amended): `cholesky_decompose(A, L)` returns `true` iff `A` is exactly
symmetric on every pair inspected during the pass (exact equality, not
tolerance-based) and every diagonal term computed before its square root is
strictly positive (`d > 0`; at `d = 0` — a merely positive *semi*-definite
direction — the flag is `false`); and regardless of the flag, the returned `L` has
its whole upper triangle forced to zero.  This holds for every initial buffer `L0`
and every square-root function `sq`. -/
theorem C4_cholesky_flag_and_upper_zero (N : ℕ) (A L0 : Mtx) (sq : ℚ → ℚ) :
    ((cholesky_decompose N A L0 sq).spd = true
        ↔ ((∀ j < N, ∀ k < j, A k j = A j k)
            ∧ ∀ d ∈ (cholesky_decompose N A L0 sq).ds, 0 < d))
      ∧ (∀ j k, j < N → j < k → k < N → (cholesky_decompose N A L0 sq).L j k = 0) := by
  have h := chol_loop_invariant N A L0 sq N
  exact ⟨h.1, fun j k hj hjk hk => h.2 j hj k hjk hk⟩

/-- Witness for C4 at the concrete symmetric positive-definite `[[4,1],[1,3]]`
(square root modelled by the abstract constant-2 function; the flag does not
depend on its values). -/
theorem C4_cholesky_flag_and_upper_zero_witness :
    (cholesky_decompose 2 (fun i j => if i = 0 ∧ j = 0 then 4 else if i = 1 ∧ j = 1 then 3 else 1)
        idm (fun _ => 2)).spd = true
      ∧ (cholesky_decompose 2 (fun i j => if i = 0 ∧ j = 0 then 4 else if i = 1 ∧ j = 1 then 3 else 1)
          idm (fun _ => 2)).L 0 1 = 0 := by
  constructor
  · refine (C4_cholesky_flag_and_upper_zero 2 _ idm (fun _ => 2)).1.mpr ⟨?_, ?_⟩
    · intro j hj k hk
      interval_cases j <;> interval_cases k <;> norm_num
    · intro d hd
      have : (cholesky_decompose 2
          (fun i j => if i = 0 ∧ j = 0 then 4 else if i = 1 ∧ j = 1 then 3 else 1)
          idm (fun _ => 2)).ds = [4, 11/4] := by
        norm_num [cholesky_decompose, cholStep, cholInnerStep, sumTo, upd, List.range_succ]
      rw [this] at hd
      rcases List.mem_cons.mp hd with h | h
      · rw [h]; norm_num
      · rw [List.mem_singleton.mp h]; norm_num
  · exact (C4_cholesky_flag_and_upper_zero 2 _ idm (fun _ => 2)).2 0 1 (by omega) (by omega) (by omega)

-- ## LU decomposition (`lu_decomposition`) and the generic determinant

/-- The modelled value of `epsilon<double>()` from the spec's "small fixed epsilon"
(`easy3d/core/constant.h` is outside the provided sources). -/
def epsD : ℚ := 1 / 10 ^ 10

/-- The modelled value of `min<double>()` (smallest positive normal double). -/
def muD : ℚ := 1 / 10 ^ 300

/-- The largest-magnitude element of row `i` (the implicit-scaling pass:
`if (element > max) max = element`, accumulator starting at 0). -/
def rowMaxAbs (N : ℕ) (B : Mtx) (i : ℕ) : ℚ :=
  (List.range N).foldl (fun mx j => if mx < |B i j| then |B i j| else mx) 0

/-- State of `lu_decomposition`: the in-place L/U matrix, the row-permutation
vector (stored as scalars, `rowp[j] = static_cast<T>(imax)`), the swap-parity
sign `d`, the implicit row scalings, and the success flag; `pivs` and `swaps`
are proof instrumentation recording the pivot values checked against epsilon
and the `(j, imax)` exchanges, without influencing the computation. -/
structure LUState where
  amat : Mtx
  rowp : ℕ → ℚ
  d : ℚ
  scalev : ℕ → ℚ
  ok : Bool
  pivs : List ℚ
  swaps : List (ℕ × ℕ)

/-- The `i < j` loop of Crout's column pass:
`sum = amat(i,j) - Σ_{k<i} amat(i,k)·amat(k,j)`, written back into `amat(i,j)`
(sequentially, so later rows read the already-updated entries above them). -/
def luAlpha (j : ℕ) (B : Mtx) : Mtx :=
  (List.range j).foldl
    (fun B2 i => upd B2 i j (B2 i j - sumTo i (fun k => B2 i k * B2 k j))) B

/-- The `i = j .. N-1` loop of Crout's column pass: computes the remaining column
entries, and tracks the row `imax` maximizing `scalev[i]·|sum|` (`dum >= max`, so
the accumulator starts at 0 and the first row `i = j` always assigns `imax`). -/
def luBeta (N j : ℕ) (scalev : ℕ → ℚ) (B : Mtx) : Mtx × ℚ × ℕ :=
  (List.range' j (N - j)).foldl (fun p i =>
    let sum := p.1 i j - sumTo j (fun k => p.1 i k * p.1 k j)
    let B2 := upd p.1 i j sum
    let dum := scalev i * |sum|
    if p.2.1 ≤ dum then (B2, dum, i) else (B2, p.2.1, p.2.2)) (B, 0, 0)

/-- The pivot row chosen at column `j` (`imax` of the second Crout pass). -/
def luImax (N : ℕ) (st : LUState) (j : ℕ) : ℕ :=
  (luBeta N j st.scalev (luAlpha j st.amat)).2.2

/-- The matrix after the two Crout passes of column `j` and the row exchange
`swap_rows(imax, j)` (performed only when `j != imax`). -/
def luB3 (N : ℕ) (st : LUState) (j : ℕ) : Mtx :=
  if j ≠ luImax N st j then
    swap_rows (luImax N st j) j (luBeta N j st.scalev (luAlpha j st.amat)).1
  else (luBeta N j st.scalev (luAlpha j st.amat)).1

/-- The pivot value `amat(j,j)` checked against epsilon at column `j`. -/
def luPiv (N : ℕ) (st : LUState) (j : ℕ) : ℚ := luB3 N st j j j

/-- One column `j` of `lu_decomposition` (no-op once the function has returned
`false`): the two Crout passes, the row exchange `swap_rows(imax, j)` with
`scalev[imax] = scalev[j]` and parity flip, `rowp[j] = imax`, the singularity
check `|amat(j,j)| < epsilon`, and the division of the subdiagonal entries by the
pivot (the source's `if (j != N)` guard is vacuously true for `j < N`). -/
def luColStep (N : ℕ) (eps : ℚ) (st : LUState) (j : ℕ) : LUState :=
  if st.ok = false then st else
  let imax := luImax N st j
  let B3 := luB3 N st j
  let sc2 := if j ≠ imax then (fun i => if i = imax then st.scalev j else st.scalev i)
    else st.scalev
  let d2 := if j ≠ imax then -st.d else st.d
  let rowp2 := fun i => if i = j then (imax : ℚ) else st.rowp i
  let piv := luPiv N st j
  let st2 : LUState :=
    { amat := B3, rowp := rowp2, d := d2, scalev := sc2, ok := st.ok,
      pivs := st.pivs ++ [piv], swaps := st.swaps ++ [(j, imax)] }
  let B4 := (List.range' (j + 1) (N - (j + 1))).foldl
    (fun B i => upd B i j (B i j * (1 / piv))) B3
  if |piv| < eps then { st2 with ok := false } else { st2 with amat := B4 }

/-- The state after `*d = 1`, `amat = a` and the implicit-scaling loop: the loop
fails (returns `false`) iff some row's largest magnitude is below `min<T>()`;
`scalev[i] = 1 / max` (the intermediate `scalev` values are local and unused on
the failure path, so they are populated unconditionally here). -/
def luInit (N : ℕ) (mu : ℚ) (a : Mtx) (rowp0 : ℕ → ℚ) : LUState :=
  { amat := a, rowp := rowp0, d := 1,
    scalev := fun i => 1 / rowMaxAbs N a i,
    ok := (List.range N).all (fun i => !(|rowMaxAbs N a i| < mu)), pivs := [], swaps := [] }

/-- `lu_decomposition(a, alu, rowp, d)` (Crout with implicit scaling and partial
pivoting); `rowp0` is the caller's uninitialized permutation buffer. -/
def lu_decomposition (N : ℕ) (eps mu : ℚ) (a : Mtx) (rowp0 : ℕ → ℚ) : LUState :=
  (List.range N).foldl (luColStep N eps) (luInit N mu a rowp0)

/-- The generic `determinant(Mat<N,N>)`: run `lu_decomposition` (ignoring its
success flag), then multiply the sign `d` by the diagonal of the stored factor. -/
def determinantN (N : ℕ) (eps mu : ℚ) (a : Mtx) : ℚ :=
  let st := lu_decomposition N eps mu a (fun _ => 0)
  (List.range N).foldl (fun r i => r * st.amat i i) st.d

/-- C5: on the rank-1 matrix `A = [[1,2],[2,4]]`, `lu_decomposition` reports failure
(the second pivot reduces to exactly 0, under the fixed epsilon), and the closed-form
`inverse(Mat2)`'s singularity indicator — the determinant — is exactly 0 (so the
`1/det` scale of the returned inverse is a division by zero). -/
theorem C5_singular_detection :
    (lu_decomposition 2 epsD muD
        (fun i j => if i = 0 ∧ j = 0 then 1 else if i = 1 ∧ j = 1 then 4 else 2)
        (fun _ => 0)).ok = false
      ∧ determinant2
          (fun i j => if i = 0 ∧ j = 0 then 1 else if i = 1 ∧ j = 1 then 4 else 2) = 0 := by
  constructor
  · norm_num [lu_decomposition, luColStep, luImax, luB3, luPiv, luInit, luAlpha, luBeta,
      rowMaxAbs, swap_rows, swapFn, sumTo, upd, epsD, muD, abs_of_nonneg,
      List.range_succ, List.range']
  · norm_num [determinant2]

/-- The 3×3 matrix `[[1,0,0],[0,δ,1],[0,δ,2]]` with `δ = 10^-11`: mathematically
non-singular (its determinant is `δ ≠ 0`), but its second pivot is `δ`, below the
fixed epsilon. -/
def matC2 : Mtx := fun i j =>
  if i = 0 ∧ j = 0 then 1
  else if i = 1 ∧ j = 1 then 1 / 10 ^ 11
  else if i = 1 ∧ j = 2 then 1
  else if i = 2 ∧ j = 1 then 1 / 10 ^ 11
  else if i = 2 ∧ j = 2 then 2
  else 0

/-- C2 counterexample: on the non-singular matrix `matC2` the closed-form 3×3
determinant is `δ = 10^-11`, while the generic LU-based determinant — whose
`lu_decomposition` call hits the epsilon guard at column 1 and returns `false`,
which `determinant` ignores — is `2δ`: they differ by a factor of 2, far outside
the claimed `10^-5` relative floating tolerance. -/
theorem C2_counterexample :
    determinant3 matC2 = 1 / 10 ^ 11
      ∧ determinantN 3 epsD muD matC2 = 2 / 10 ^ 11
      ∧ (lu_decomposition 3 epsD muD matC2 (fun _ => 0)).ok = false
      ∧ |determinantN 3 epsD muD matC2 - determinant3 matC2|
          > (1 / 10 ^ 5) * |determinant3 matC2| := by
  have h1 : determinant3 matC2 = 1 / 10 ^ 11 := by norm_num [determinant3, matC2]
  have hQ : |(1 : ℚ) / 100000000000| = 1 / 100000000000 := abs_of_pos (by norm_num)
  have h3 : (lu_decomposition 3 epsD muD matC2 (fun _ => 0)).ok = false := by
    norm_num [lu_decomposition, luColStep, luImax, luB3, luPiv, luInit, luAlpha, luBeta,
      rowMaxAbs, swap_rows, swapFn, sumTo, upd, matC2, epsD, muD, hQ, abs_of_nonneg,
      List.range_succ, List.range']
  have h2 : determinantN 3 epsD muD matC2 = 2 / 10 ^ 11 := by
    norm_num [determinantN, lu_decomposition, luColStep, luImax, luB3, luPiv, luInit,
      luAlpha, luBeta, rowMaxAbs, swap_rows, swapFn, sumTo, upd, matC2, epsD, muD, hQ,
      abs_of_nonneg, List.range_succ, List.range']
  refine ⟨h1, h2, h3, ?_⟩
  rw [h1, h2]
  norm_num

-- ## Analysis of `lu_decomposition`: helper lemmas

theorem sumTo_eq_sum (n : ℕ) (f : ℕ → ℚ) : sumTo n f = ∑ k in Finset.range n, f k := by
  induction n with
  | zero => simp [sumTo]
  | succ m ih =>
    unfold sumTo at ih ⊢
    rw [List.range_succ, List.foldl_append, Finset.sum_range_succ, ih]
    simp

theorem sumTo_congr {n : ℕ} {f g : ℕ → ℚ} (h : ∀ k < n, f k = g k) :
    sumTo n f = sumTo n g := by
  rw [sumTo_eq_sum, sumTo_eq_sum]
  exact Finset.sum_congr rfl (fun k hk => h k (Finset.mem_range.mp hk))

/-- The row permutation accumulated by a list of `(r, c)` row exchanges, composed
in the order the exchanges were performed (`σ_(m+1) = σ_m ∘ swap r_m c_m`). -/
def permOf (L : List (ℕ × ℕ)) (x : ℕ) : ℕ := L.foldr (fun p y => swapFn p.1 p.2 y) x

theorem permOf_nil (x : ℕ) : permOf [] x = x := rfl

theorem permOf_append (L : List (ℕ × ℕ)) (p : ℕ × ℕ) (x : ℕ) :
    permOf (L ++ [p]) x = permOf L (swapFn p.1 p.2 x) := by
  simp [permOf, List.foldr_append]

theorem permOf_lt {N : ℕ} {L : List (ℕ × ℕ)} (hL : ∀ p ∈ L, p.1 < N ∧ p.2 < N)
    {x : ℕ} (hx : x < N) : permOf L x < N := by
  induction L with
  | nil => simpa [permOf]
  | cons p L ih =>
    have h1 := hL p (List.mem_cons_self p L)
    show swapFn p.1 p.2 (permOf L x) < N
    exact swapFn_lt _ _ _ _ h1.1 h1.2 (ih (fun q hq => hL q (List.mem_cons_of_mem p hq)))

/-- Exchanging two distinct rows `r ≠ c` (both `< N`) negates the determinant. -/
theorem det_rowswap {N r c : ℕ} (hr : r < N) (hc : c < N) (hrc : r ≠ c) (M : Mtx) :
    Matrix.det (toM N (fun i k => M (swapFn r c i) k)) = -Matrix.det (toM N M) := by
  have hσ : toM N (fun i k => M (swapFn r c i) k)
      = (toM N M).submatrix (⇑(Equiv.swap (⟨r, hr⟩ : Fin N) ⟨c, hc⟩)) id := by
    ext i j
    show M (swapFn r c i.val) j.val = M ((Equiv.swap (⟨r, hr⟩ : Fin N) ⟨c, hc⟩ i) : Fin N).val j.val
    rw [Equiv.swap_apply_def]
    unfold swapFn
    by_cases h1 : i = (⟨r, hr⟩ : Fin N)
    · have : i.val = r := by rw [h1]
      simp [h1, this]
    · have h1v : i.val ≠ r := fun hh => h1 (Fin.ext hh)
      by_cases h2 : i = (⟨c, hc⟩ : Fin N)
      · have hvc : i.val = c := by rw [h2]
        have hcr : c ≠ r := Ne.symm hrc
        simp [h1, h2, h1v, hvc, hcr]
      · have h2v : i.val ≠ c := fun hh => h2 (Fin.ext hh)
        simp [h1, h2, h1v, h2v]
  rw [hσ, Matrix.det_permute, Equiv.Perm.sign_swap (by simp [Fin.ext_iff, hrc])]
  simp

/-- Cells not in column `j` at rows `< n` are untouched by the first Crout pass. -/
theorem luAlphaAux_untouched (j n : ℕ) (B : Mtx) (x y : ℕ) (h : y ≠ j ∨ n ≤ x) :
    ((List.range n).foldl
        (fun B2 i => upd B2 i j (B2 i j - sumTo i (fun k => B2 i k * B2 k j))) B) x y
      = B x y := by
  induction n with
  | zero => simp
  | succ m ih =>
    rw [List.range_succ, List.foldl_append]
    simp only [List.foldl_cons, List.foldl_nil]
    rw [upd_ne _ _ _ _ (by omega : ¬(x = m ∧ y = j)), ih (by omega)]

theorem luAlpha_untouched (j : ℕ) (B : Mtx) (x y : ℕ) (h : y ≠ j ∨ j ≤ x) :
    luAlpha j B x y = B x y :=
  luAlphaAux_untouched j j B x y h

/-- Value computed by the first Crout pass: for `i < j`,
`amat(i,j) = B(i,j) - Σ_{k<i} B(i,k)·U(k,j)` where `U(k,j)` are the already
updated entries above. -/
theorem luAlpha_value (j : ℕ) (B : Mtx) {i : ℕ} (hi : i < j) :
    luAlpha j B i j = B i j - sumTo i (fun k => B i k * luAlpha j B k j) := by
  unfold luAlpha
  suffices h : ∀ n, n ≤ j → ∀ i < n,
      ((List.range n).foldl
        (fun B2 i2 => upd B2 i2 j (B2 i2 j - sumTo i2 (fun k => B2 i2 k * B2 k j))) B) i j
      = B i j - sumTo i (fun k => B i k *
          ((List.range n).foldl
            (fun B2 i2 => upd B2 i2 j (B2 i2 j - sumTo i2 (fun k2 => B2 i2 k2 * B2 k2 j))) B) k j) by
    exact h j le_rfl i hi
  intro n
  induction n with
  | zero => omega
  | succ m ih =>
    intro hmj i hi2
    rw [List.range_succ, List.foldl_append]
    simp only [List.foldl_cons, List.foldl_nil]
    by_cases him : i = m
    · subst him
      rw [upd_same, luAlphaAux_untouched j i B i j (by omega)]
      congr 1
      apply sumTo_congr
      intro k hk
      rw [upd_ne _ _ _ _ (by omega : ¬(k = i ∧ j = j)),
        luAlphaAux_untouched j i B i k (by omega)]
    · have hilt : i < m := by omega
      rw [upd_ne _ _ _ _ (by omega : ¬(i = m ∧ j = j)), ih (by omega) i hilt]
      congr 1
      apply sumTo_congr
      intro k hk
      rw [upd_ne _ _ _ _ (by omega : ¬(k = m ∧ j = j))]

/-- Matrix part of the second Crout pass over rows `[s, s+len)`: each written entry
is `B(i,j) - Σ_{k<j} B(i,k)·B(k,j)` of the pass's starting matrix (the pass reads
only cells it never writes), other cells are untouched; the pivot bookkeeping does
not influence the matrix. -/
theorem luBetaAux_matrix (j : ℕ) (scalev : ℕ → ℚ) (len : ℕ) :
    ∀ (s : ℕ) (B : Mtx) (mx : ℚ) (im : ℕ), j ≤ s → ∀ x y,
      ((List.range' s len).foldl (fun p i =>
          let sum := p.1 i j - sumTo j (fun k => p.1 i k * p.1 k j)
          let B2 := upd p.1 i j sum
          let dum := scalev i * |sum|
          if p.2.1 ≤ dum then (B2, dum, i) else (B2, p.2.1, p.2.2)) (B, mx, im)).1 x y
        = if y = j ∧ s ≤ x ∧ x < s + len
            then B x j - sumTo j (fun k => B x k * B k j) else B x y := by
  induction len with
  | zero =>
    intro s B mx im hs x y
    rw [if_neg (by omega)]
    rfl
  | succ m ih =>
    intro s B mx im hs x y
    rw [List.range'_succ]
    simp only [List.foldl_cons]
    have hsplit : ∀ (q : Mtx × ℚ × ℕ),
        q.1 = upd B s j (B s j - sumTo j (fun k => B s k * B k j)) →
        ((List.range' (s + 1) m).foldl (fun p i =>
            let sum := p.1 i j - sumTo j (fun k => p.1 i k * p.1 k j)
            let B2 := upd p.1 i j sum
            let dum := scalev i * |sum|
            if p.2.1 ≤ dum then (B2, dum, i) else (B2, p.2.1, p.2.2)) q).1 x y
          = if y = j ∧ s ≤ x ∧ x < s + (m + 1)
              then B x j - sumTo j (fun k => B x k * B k j) else B x y := by
      intro q hq
      obtain ⟨B1, mx1, im1⟩ := q
      simp only at hq
      subst hq
      rw [ih (s + 1) _ mx1 im1 (by omega) x y]
      by_cases h1 : y = j ∧ s + 1 ≤ x ∧ x < s + 1 + m
      · rw [if_pos h1, if_pos (by omega)]
        have e1 : upd B s j (B s j - sumTo j (fun k => B s k * B k j)) x j = B x j :=
          upd_ne _ _ _ _ (by omega)
        have e2 : ∀ k < j, upd B s j (B s j - sumTo j (fun k2 => B s k2 * B k2 j)) x k
            * upd B s j (B s j - sumTo j (fun k2 => B s k2 * B k2 j)) k j
            = B x k * B k j := by
          intro k hk
          rw [upd_ne _ _ _ _ (by omega : ¬(x = s ∧ k = j)),
            upd_ne _ _ _ _ (by omega : ¬(k = s ∧ j = j))]
        rw [e1, sumTo_congr e2]
      · rw [if_neg h1]
        by_cases h2 : x = s ∧ y = j
        · rw [upd, if_pos h2, if_pos (by omega)]
          obtain ⟨hx, hy⟩ := h2
          subst hx; subst hy
          rfl
        · rw [upd_ne _ _ _ _ h2, if_neg (by omega)]
    by_cases hbr : mx ≤ scalev s * |B s j - sumTo j (fun k => B s k * B k j)|
    · rw [if_pos hbr] at *
      exact hsplit _ rfl
    · rw [if_neg hbr] at *
      exact hsplit _ rfl

/-- The pivot-row tracking of the second Crout pass: any fold step keeps the
candidate inside the processed set. -/
theorem luBetaAux_imax (j : ℕ) (scalev : ℕ → ℚ) (l : List ℕ) (lo hi : ℕ) :
    (∀ i ∈ l, lo ≤ i ∧ i < hi) →
    ∀ (q : Mtx × ℚ × ℕ), (lo ≤ q.2.2 ∧ q.2.2 < hi) →
      (lo ≤ (l.foldl (fun p i =>
          let sum := p.1 i j - sumTo j (fun k => p.1 i k * p.1 k j)
          let B2 := upd p.1 i j sum
          let dum := scalev i * |sum|
          if p.2.1 ≤ dum then (B2, dum, i) else (B2, p.2.1, p.2.2)) q).2.2
        ∧ (l.foldl (fun p i =>
          let sum := p.1 i j - sumTo j (fun k => p.1 i k * p.1 k j)
          let B2 := upd p.1 i j sum
          let dum := scalev i * |sum|
          if p.2.1 ≤ dum then (B2, dum, i) else (B2, p.2.1, p.2.2)) q).2.2 < hi) := by
  induction l with
  | nil => intro _ q hq; simpa using hq
  | cons i l ih =>
    intro hl q hq
    simp only [List.foldl_cons]
    have hmem := hl i (List.mem_cons_self i l)
    have hl2 : ∀ i2 ∈ l, lo ≤ i2 ∧ i2 < hi := fun i2 h2 => hl i2 (List.mem_cons_of_mem i h2)
    by_cases hbr : q.2.1 ≤ scalev i * |q.1 i j - sumTo j (fun k => q.1 i k * q.1 k j)|
    · rw [if_pos hbr]
      exact ih hl2 _ hmem
    · rw [if_neg hbr]
      exact ih hl2 _ hq

/-- On a nonempty row range and with nonnegative scalings (as produced by the
implicit-scaling pass) the first iteration `i = j` always assigns `imax`
(`dum >= max` with `max` starting at 0), so the chosen pivot row lies in `[j, N)`. -/
theorem luBeta_imax_bounds (N j : ℕ) (scalev : ℕ → ℚ) (B : Mtx) (hj : j < N)
    (hsc : ∀ i, 0 ≤ scalev i) :
    j ≤ (luBeta N j scalev B).2.2 ∧ (luBeta N j scalev B).2.2 < N := by
  unfold luBeta
  have hNj : N - j = (N - j - 1) + 1 := by omega
  rw [hNj, List.range'_succ]
  simp only [List.foldl_cons]
  have h0 : (0 : ℚ) ≤ scalev j * |B j j - sumTo j (fun k => B j k * B k j)| :=
    mul_nonneg (hsc j) (abs_nonneg _)
  rw [if_pos h0]
  apply luBetaAux_imax j scalev _ j N
  · intro i hi2
    have := List.mem_range'_1.mp hi2
    omega
  · exact ⟨le_rfl, hj⟩

theorem luBeta_matrix (N j : ℕ) (scalev : ℕ → ℚ) (B : Mtx) (hj : j ≤ N) (x y : ℕ) :
    (luBeta N j scalev B).1 x y
      = if y = j ∧ j ≤ x ∧ x < N
          then B x j - sumTo j (fun k => B x k * B k j) else B x y := by
  unfold luBeta
  rw [luBetaAux_matrix j scalev (N - j) j B 0 0 le_rfl x y]
  by_cases h : y = j ∧ j ≤ x ∧ x < j + (N - j)
  · rw [if_pos h, if_pos (by omega)]
  · rw [if_neg h, if_neg (by omega)]

/-- The subdiagonal division loop `for (i = j+1; i < N; ++i) amat(i,j) *= 1/piv`. -/
theorem foldl_coldiv_apply (len : ℕ) :
    ∀ (s j : ℕ) (t : ℚ) (B : Mtx) (x y : ℕ),
    ((List.range' s len).foldl (fun B2 i => upd B2 i j (B2 i j * t)) B) x y
      = if y = j ∧ s ≤ x ∧ x < s + len then B x j * t else B x y := by
  induction len with
  | zero =>
    intro s j t B x y
    rw [if_neg (by omega)]
    rfl
  | succ m ih =>
    intro s j t B x y
    rw [List.range'_succ]
    simp only [List.foldl_cons]
    rw [ih (s + 1) j t _ x y]
    by_cases h1 : y = j ∧ s + 1 ≤ x ∧ x < s + 1 + m
    · rw [if_pos h1, if_pos (by omega), upd_ne _ _ _ _ (by omega : ¬(x = s ∧ j = j))]
    · rw [if_neg h1]
      by_cases h2 : x = s ∧ y = j
      · rw [upd, if_pos h2, if_pos (by omega)]
        obtain ⟨hx, hy⟩ := h2
        subst hx; subst hy
        rfl
      · rw [upd_ne _ _ _ _ h2, if_neg (by omega)]

theorem swapFn_self (a x : ℕ) : swapFn a a x = x := by
  unfold swapFn
  by_cases h : x = a <;> simp [h]

theorem swapFn_comm (a b x : ℕ) : swapFn a b x = swapFn b a x := by
  unfold swapFn
  by_cases h1 : x = a
  · by_cases h2 : x = b
    · rw [if_pos h1, if_pos h2, ← h1, ← h2]
    · have hab : ¬(a = b) := fun hh => h2 (h1.trans hh)
      simp [h1, h2, hab]
  · by_cases h2 : x = b <;> simp [h1, h2]

theorem rowMaxAbs_nonneg (N : ℕ) (B : Mtx) (i : ℕ) : 0 ≤ rowMaxAbs N B i := by
  unfold rowMaxAbs
  suffices h : ∀ (l : List ℕ) (c : ℚ), 0 ≤ c →
      0 ≤ l.foldl (fun mx j => if mx < |B i j| then |B i j| else mx) c from
    h _ 0 le_rfl
  intro l
  induction l with
  | nil => intro c hc; simpa
  | cons x l ih =>
    intro c hc
    simp only [List.foldl_cons]
    by_cases h : c < |B i x|
    · rw [if_pos h]
      exact ih _ (abs_nonneg _)
    · rw [if_neg h]
      exact ih _ hc

/-- On the success path, one LU column step produces this explicit state. -/
theorem luColStep_ok_eq (N : ℕ) (eps : ℚ) (st : LUState) (n : ℕ) (h0 : st.ok = true)
    (hguard : ¬ |luPiv N st n| < eps) :
    luColStep N eps st n =
      { amat := (List.range' (n + 1) (N - (n + 1))).foldl
          (fun B i => upd B i n (B i n * (1 / luPiv N st n))) (luB3 N st n),
        rowp := fun i => if i = n then (luImax N st n : ℚ) else st.rowp i,
        d := if n ≠ luImax N st n then -st.d else st.d,
        scalev := if n ≠ luImax N st n
          then (fun i => if i = luImax N st n then st.scalev n else st.scalev i)
          else st.scalev,
        ok := true,
        pivs := st.pivs ++ [luPiv N st n],
        swaps := st.swaps ++ [(n, luImax N st n)] } := by
  rw [luColStep, if_neg (by simp [h0]), if_neg hguard, h0]

/-- On a live state, the step succeeds iff the pivot passes the epsilon check. -/
theorem luColStep_ok_iff (N : ℕ) (eps : ℚ) (st : LUState) (n : ℕ) (h0 : st.ok = true) :
    (luColStep N eps st n).ok = true ↔ ¬ |luPiv N st n| < eps := by
  rw [luColStep, if_neg (by simp [h0])]
  by_cases h : |luPiv N st n| < eps
  · simp [h]
  · simp [h, h0]

/-- A failed state is absorbing, so success of a step implies the input was live. -/
theorem luColStep_ok_mono (N : ℕ) (eps : ℚ) (st : LUState) (j : ℕ)
    (h : (luColStep N eps st j).ok = true) : st.ok = true := by
  cases hb : st.ok with
  | false =>
    rw [luColStep, if_pos hb] at h
    rw [hb] at h
    exact absurd h (by simp)
  | true => rfl

/-- The column loop of `lu_decomposition` as a recursion on the number of processed
columns (each iteration of `for (j = 0; j < N; ++j)` applies `luColStep _ _ _ j`). -/
def luLoop (N : ℕ) (eps mu : ℚ) (a : Mtx) (rowp0 : ℕ → ℚ) : ℕ → LUState
  | 0 => luInit N mu a rowp0
  | n + 1 => luColStep N eps (luLoop N eps mu a rowp0 n) n

theorem luLoop_eq_foldl (N : ℕ) (eps mu : ℚ) (a : Mtx) (rowp0 : ℕ → ℚ) (n : ℕ) :
    (List.range n).foldl (luColStep N eps) (luInit N mu a rowp0)
      = luLoop N eps mu a rowp0 n := by
  induction n with
  | zero => rfl
  | succ m ih =>
    rw [List.range_succ, List.foldl_append]
    simp only [List.foldl_cons, List.foldl_nil, ih]
    rfl

theorem lu_eq_luLoop (N : ℕ) (eps mu : ℚ) (a : Mtx) (rowp0 : ℕ → ℚ) :
    lu_decomposition N eps mu a rowp0 = luLoop N eps mu a rowp0 N :=
  luLoop_eq_foldl N eps mu a rowp0 N

/-- The invariant carried over the columns of `lu_decomposition` on its success
path: the already-processed columns store the Crout factors of the row-permuted
input, the untouched columns are the row-permuted input, and `d` tracks the
permutation parity at the determinant level. -/
structure LUInv (N : ℕ) (a : Mtx) (n : ℕ) (st : LUState) : Prop where
  okT : st.ok = true
  swlen : st.swaps.length = n
  swmem : ∀ p ∈ st.swaps, p.1 ≤ p.2 ∧ p.2 < N
  upper : ∀ i c, n ≤ c → st.amat i c = a (permOf st.swaps i) c
  uEq : ∀ c < n, ∀ i ≤ c, st.amat i c
      = a (permOf st.swaps i) c - sumTo i (fun k => st.amat i k * st.amat k c)
  lEq : ∀ c < n, ∀ i, c < i → i < N → st.amat i c * st.amat c c
      = a (permOf st.swaps i) c - sumTo c (fun k => st.amat i k * st.amat k c)
  detI : Matrix.det (toM N (fun i k => a (permOf st.swaps i) k))
      = st.d * Matrix.det (toM N a)
  dpm : st.d = 1 ∨ st.d = -1
  scnn : ∀ i, 0 ≤ st.scalev i

/-- One successful column step preserves the LU invariant. -/
theorem LUInv_step (N : ℕ) (eps : ℚ) (a : Mtx) (n : ℕ) (st : LUState)
    (inv : LUInv N a n st) (hn : n < N) (heps : 0 < eps)
    (hguard : ¬ |luPiv N st n| < eps) :
    LUInv N a (n + 1) (luColStep N eps st n) := by
  have him : n ≤ luImax N st n ∧ luImax N st n < N :=
    luBeta_imax_bounds N n st.scalev (luAlpha n st.amat) hn inv.scnn
  have hpivne : luPiv N st n ≠ 0 := by
    intro h
    rw [h, abs_zero] at hguard
    exact hguard heps
  have hB3 : ∀ x y, luB3 N st n x y
      = (luBeta N n st.scalev (luAlpha n st.amat)).1 (swapFn (luImax N st n) n x) y := by
    intro x y
    unfold luB3
    by_cases h : n ≠ luImax N st n
    · rw [if_pos h]
      rfl
    · rw [if_neg h]
      push_neg at h
      rw [← h, swapFn_self]
  have hB2 : ∀ x y, (luBeta N n st.scalev (luAlpha n st.amat)).1 x y
      = if y = n ∧ n ≤ x ∧ x < N
          then luAlpha n st.amat x n
            - sumTo n (fun k => luAlpha n st.amat x k * luAlpha n st.amat k n)
          else luAlpha n st.amat x y :=
    fun x y => luBeta_matrix N n st.scalev (luAlpha n st.amat) (le_of_lt hn) x y
  have hswap_range : ∀ x, n ≤ x → x < N
      → n ≤ swapFn (luImax N st n) n x ∧ swapFn (luImax N st n) n x < N := by
    intro x hx1 hx2
    unfold swapFn
    by_cases h1 : x = luImax N st n
    · rw [if_pos h1]
      exact ⟨le_rfl, hn⟩
    · rw [if_neg h1]
      by_cases h2 : x = n
      · rw [if_pos h2]
        exact him
      · rw [if_neg h2]
        exact ⟨hx1, hx2⟩
  have hfix : ∀ x, x < n → swapFn (luImax N st n) n x = x := by
    intro x hx
    exact swapFn_other _ _ (by omega) (by omega)
  have hA : ∀ x y,
      ((List.range' (n + 1) (N - (n + 1))).foldl
        (fun B i => upd B i n (B i n * (1 / luPiv N st n))) (luB3 N st n)) x y
      = if y = n ∧ n + 1 ≤ x ∧ x < N
          then luB3 N st n x n * (1 / luPiv N st n) else luB3 N st n x y := by
    intro x y
    rw [foldl_coldiv_apply]
    by_cases h : y = n ∧ n + 1 ≤ x ∧ x < n + 1 + (N - (n + 1))
    · rw [if_pos h, if_pos (by omega)]
    · rw [if_neg h, if_neg (by omega)]
  have hAold : ∀ x y, y ≠ n →
      ((List.range' (n + 1) (N - (n + 1))).foldl
        (fun B i => upd B i n (B i n * (1 / luPiv N st n))) (luB3 N st n)) x y
      = st.amat (swapFn (luImax N st n) n x) y := by
    intro x y hy
    rw [hA, if_neg (by tauto), hB3, hB2, if_neg (by tauto),
      luAlpha_untouched n st.amat _ y (Or.inl hy)]
  have hAtop : ∀ x, x < n →
      ((List.range' (n + 1) (N - (n + 1))).foldl
        (fun B i => upd B i n (B i n * (1 / luPiv N st n))) (luB3 N st n)) x n
      = luAlpha n st.amat x n := by
    intro x hx
    rw [hA, if_neg (by omega), hB3, hfix x hx, hB2, if_neg (by omega)]
  have hpiv_eq : luPiv N st n
      = luAlpha n st.amat (luImax N st n) n
        - sumTo n (fun k => luAlpha n st.amat (luImax N st n) k * luAlpha n st.amat k n) := by
    show luB3 N st n n n = _
    rw [hB3, swapFn_right, hB2, if_pos ⟨rfl, him.1, him.2⟩]
  have hAdiag :
      ((List.range' (n + 1) (N - (n + 1))).foldl
        (fun B i => upd B i n (B i n * (1 / luPiv N st n))) (luB3 N st n)) n n
      = luPiv N st n := by
    rw [hA, if_neg (by omega)]
    rfl
  have hAlow : ∀ x, n < x → x < N →
      ((List.range' (n + 1) (N - (n + 1))).foldl
        (fun B i => upd B i n (B i n * (1 / luPiv N st n))) (luB3 N st n)) x n
      = (luAlpha n st.amat (swapFn (luImax N st n) n x) n
          - sumTo n (fun k => luAlpha n st.amat (swapFn (luImax N st n) n x) k
              * luAlpha n st.amat k n)) * (1 / luPiv N st n) := by
    intro x hx1 hx2
    rw [hA, if_pos ⟨rfl, by omega, hx2⟩, hB3, hB2,
      if_pos ⟨rfl, (hswap_range x (by omega) hx2).1, (hswap_range x (by omega) hx2).2⟩]
  have hB1low : ∀ x y, n ≤ x → luAlpha n st.amat x y = st.amat x y := fun x y hx =>
    luAlpha_untouched n st.amat x y (Or.inr hx)
  have hB1col : ∀ x y, y ≠ n → luAlpha n st.amat x y = st.amat x y := fun x y hy =>
    luAlpha_untouched n st.amat x y (Or.inl hy)
  have hperm : ∀ x, permOf (st.swaps ++ [(n, luImax N st n)]) x
      = permOf st.swaps (swapFn (luImax N st n) n x) := by
    intro x
    rw [permOf_append]
    show permOf st.swaps (swapFn n (luImax N st n) x) = _
    rw [swapFn_comm n (luImax N st n) x]
  rw [luColStep_ok_eq N eps st n inv.okT hguard]
  refine ⟨rfl, ?_, ?_, ?_, ?_, ?_, ?_, ?_, ?_⟩
  · show (st.swaps ++ [(n, luImax N st n)]).length = n + 1
    rw [List.length_append, inv.swlen]
    rfl
  · show ∀ p ∈ st.swaps ++ [(n, luImax N st n)], p.1 ≤ p.2 ∧ p.2 < N
    intro p hp
    rcases List.mem_append.mp hp with h | h
    · exact inv.swmem p h
    · rw [List.mem_singleton.mp h]
      exact him
  · -- upper: untouched columns of the new state are the row-permuted input
    intro i c hc
    dsimp only
    rw [hAold i c (by omega), hperm]
    exact inv.upper _ c (by omega)
  · -- uEq: the upper-triangular Crout equations for columns ≤ n
    intro c hc i hi
    dsimp only
    rcases Nat.lt_succ_iff_lt_or_eq.mp hc with hlt | hceq
    · rw [hAold i c (by omega), hfix i (by omega), hperm, hfix i (by omega),
        inv.uEq c hlt i hi]
      congr 1
      apply sumTo_congr
      intro k hk
      rw [hAold i k (by omega), hfix i (by omega), hAold k c (by omega), hfix k (by omega)]
    · subst hceq
      rcases Nat.lt_or_ge i c with hilt | hige
      · rw [hAtop i hilt, luAlpha_value c st.amat hilt, hperm, hfix i hilt,
          ← inv.upper i c le_rfl]
        congr 1
        apply sumTo_congr
        intro k hk
        rw [hAold i k (by omega), hfix i (by omega), hAtop k (by omega)]
      · have hieq : i = c := by omega
        subst hieq
        have hsum : sumTo i (fun k =>
              (List.range' (i + 1) (N - (i + 1))).foldl
                (fun B i2 => upd B i2 i (B i2 i * (1 / luPiv N st i))) (luB3 N st i) i k
              * (List.range' (i + 1) (N - (i + 1))).foldl
                (fun B i2 => upd B i2 i (B i2 i * (1 / luPiv N st i))) (luB3 N st i) k i)
            = sumTo i (fun k =>
              luAlpha i st.amat (luImax N st i) k * luAlpha i st.amat k i) := by
          apply sumTo_congr
          intro k hk
          rw [hAold i k (by omega), swapFn_right, hAtop k hk,
            hB1col (luImax N st i) k (by omega)]
        rw [hAdiag, hperm, swapFn_right, ← inv.upper (luImax N st i) i le_rfl,
          ← hB1low (luImax N st i) i him.1, hsum]
        exact hpiv_eq
  · -- lEq: the subdiagonal Crout equations for columns ≤ n
    intro c hc i hci hiN
    dsimp only
    rcases Nat.lt_succ_iff_lt_or_eq.mp hc with hlt | hceq
    · have hx : c < swapFn (luImax N st n) n i ∧ swapFn (luImax N st n) n i < N := by
        unfold swapFn
        by_cases h1 : i = luImax N st n
        · rw [if_pos h1]
          exact ⟨hlt, hn⟩
        · rw [if_neg h1]
          by_cases h2 : i = n
          · rw [if_pos h2]
            exact ⟨by omega, him.2⟩
          · rw [if_neg h2]
            exact ⟨hci, hiN⟩
      rw [hAold i c (by omega), hAold c c (by omega), hfix c (by omega), hperm,
        inv.lEq c hlt _ hx.1 hx.2]
      congr 1
      apply sumTo_congr
      intro k hk
      rw [hAold i k (by omega), hAold k c (by omega), hfix k (by omega)]
    · subst hceq
      have hcancel : ∀ q : ℚ, q * (1 / luPiv N st c) * luPiv N st c = q := by
        intro q
        rw [mul_assoc, one_div, inv_mul_cancel₀ hpivne, mul_one]
      have hxr := hswap_range i (by omega) hiN
      have hsum : sumTo c (fun k =>
            (List.range' (c + 1) (N - (c + 1))).foldl
              (fun B i2 => upd B i2 c (B i2 c * (1 / luPiv N st c))) (luB3 N st c) i k
            * (List.range' (c + 1) (N - (c + 1))).foldl
              (fun B i2 => upd B i2 c (B i2 c * (1 / luPiv N st c))) (luB3 N st c) k c)
          = sumTo c (fun k =>
            luAlpha c st.amat (swapFn (luImax N st c) c i) k * luAlpha c st.amat k c) := by
        apply sumTo_congr
        intro k hk
        rw [hAold i k (by omega), hAtop k hk,
          ← hB1col (swapFn (luImax N st c) c i) k (by omega)]
      rw [hAlow i hci hiN, hAdiag, hcancel, hperm,
        ← inv.upper (swapFn (luImax N st c) c i) c le_rfl,
        ← hB1low (swapFn (luImax N st c) c i) c hxr.1, hsum]
  · -- detI: determinant of the row-permuted input tracks the parity sign
    show Matrix.det (toM N (fun i k => a (permOf (st.swaps ++ [(n, luImax N st n)]) i) k))
        = (if n ≠ luImax N st n then -st.d else st.d) * Matrix.det (toM N a)
    have h1 : toM N (fun i k => a (permOf (st.swaps ++ [(n, luImax N st n)]) i) k)
        = toM N (fun i k =>
            (fun i2 k2 => a (permOf st.swaps i2) k2) (swapFn (luImax N st n) n i) k) := by
      ext i k
      show a (permOf (st.swaps ++ [(n, luImax N st n)]) i.val) k.val = _
      rw [hperm]
      rfl
    by_cases hcase : n ≠ luImax N st n
    · rw [h1, det_rowswap him.2 hn (Ne.symm hcase) (fun i2 k2 => a (permOf st.swaps i2) k2),
        inv.detI, if_pos hcase]
      ring
    · push_neg at hcase
      have h2 : toM N (fun i k =>
            (fun i2 k2 => a (permOf st.swaps i2) k2) (swapFn (luImax N st n) n i) k)
          = toM N (fun i k => a (permOf st.swaps i) k) := by
        ext i k
        show a (permOf st.swaps (swapFn (luImax N st n) n i.val)) k.val = _
        rw [← hcase, swapFn_self]
        rfl
      rw [h1, h2, inv.detI, if_neg (by omega)]
  · -- dpm
    rcases inv.dpm with h | h <;> by_cases hc : n ≠ luImax N st n <;>
      simp [hc, h]
  · -- scnn
    intro i
    show (0 : ℚ) ≤ (if n ≠ luImax N st n
        then (fun i2 => if i2 = luImax N st n then st.scalev n else st.scalev i2)
        else st.scalev) i
    by_cases hc : n ≠ luImax N st n
    · rw [if_pos hc]
      by_cases h2 : i = luImax N st n
      · rw [if_pos h2]
        exact inv.scnn n
      · rw [if_neg h2]
        exact inv.scnn i
    · rw [if_neg hc]
      exact inv.scnn i

/-- The invariant holds after every prefix of columns, as long as the run is
still successful. -/
theorem LUInv_loop (N : ℕ) (eps mu : ℚ) (a : Mtx) (rowp0 : ℕ → ℚ) (heps : 0 < eps)
    (n : ℕ) (hn : n ≤ N) (hok : (luLoop N eps mu a rowp0 n).ok = true) :
    LUInv N a n (luLoop N eps mu a rowp0 n) := by
  induction n with
  | zero =>
    refine ⟨hok, rfl, by simp [luLoop, luInit], ?_, ?_, ?_, ?_, ?_, ?_⟩
    · intro i c _
      show a i c = a (permOf [] i) c
      rw [permOf_nil]
    · intro c hc
      omega
    · intro c hc
      omega
    · show Matrix.det (toM N (fun i k => a (permOf [] i) k)) = 1 * Matrix.det (toM N a)
      rw [one_mul]
      congr 1
    · exact Or.inl rfl
    · intro i
      show (0 : ℚ) ≤ 1 / rowMaxAbs N a i
      exact one_div_nonneg.mpr (rowMaxAbs_nonneg N a i)
  | succ m ih =>
    have hokm : (luLoop N eps mu a rowp0 m).ok = true :=
      luColStep_ok_mono N eps _ m hok
    have inv := ih (by omega) hokm
    have hguard : ¬ |luPiv N (luLoop N eps mu a rowp0 m) m| < eps :=
      (luColStep_ok_iff N eps _ m hokm).mp hok
    exact LUInv_step N eps a m _ inv (by omega) heps hguard

theorem foldl_mul_eq (n : ℕ) (g : ℕ → ℚ) (c : ℚ) :
    (List.range n).foldl (fun r i => r * g i) c = c * ∏ i in Finset.range n, g i := by
  induction n generalizing c with
  | zero => simp
  | succ m ih =>
    rw [List.range_succ, List.foldl_append, Finset.prod_range_succ]
    simp only [List.foldl_cons, List.foldl_nil, ih]
    ring

/-- Generic LU-based determinant correctness: whenever `lu_decomposition` succeeds,
the value computed by the generic `determinant` — the swap-parity sign times the
product of the diagonal of the stored factor — is exactly the determinant of the
input. -/
theorem determinantN_correct (N : ℕ) (eps mu : ℚ) (a : Mtx) (heps : 0 < eps)
    (hok : (lu_decomposition N eps mu a (fun _ => 0)).ok = true) :
    determinantN N eps mu a = Matrix.det (toM N a) := by
  rw [lu_eq_luLoop] at hok
  have inv := LUInv_loop N eps mu a (fun _ => 0) heps N le_rfl hok
  set st := luLoop N eps mu a (fun _ => 0) N with hst
  -- the triangular factors read off the final in-place matrix
  set LL : Mtx := fun i k => if k < i then st.amat i k else if k = i then 1 else 0 with hLL
  set UU : Mtx := fun i k => if i ≤ k then st.amat i k else 0 with hUU
  have hfact : toM N (fun i k => a (permOf st.swaps i) k) = toM N LL * toM N UU := by
    ext i k
    show a (permOf st.swaps i.val) k.val = _
    rw [Matrix.mul_apply]
    have hconv : ∑ m : Fin N, toM N LL i m * toM N UU m k
        = ∑ m in Finset.range N, LL i.val m * UU m k.val :=
      Fin.sum_univ_eq_sum_range (fun m => LL i.val m * UU m k.val) N
    rw [hconv]
    rcases le_or_lt i.val k.val with hik | hki
    · -- upper part: use the uEq equation at (i, k)
      have he := inv.uEq k.val k.isLt i.val hik
      have hsplit : Finset.range N = Finset.range (i.val + 1) ∪ Finset.Ico (i.val + 1) N := by
        ext x
        simp only [Finset.mem_range, Finset.mem_union, Finset.mem_Ico]
        omega
      rw [hsplit, Finset.sum_union (by
          simp only [Finset.range_eq_Ico]
          exact Finset.Ico_disjoint_Ico_consecutive 0 (i.val + 1) N)]
      have htail : ∑ m in Finset.Ico (i.val + 1) N, LL i.val m * UU m k.val = 0 := by
        apply Finset.sum_eq_zero
        intro m hm
        have hm2 := Finset.mem_Ico.mp hm
        rw [hLL]
        simp only
        rw [if_neg (by omega), if_neg (by omega), zero_mul]
      rw [htail, add_zero, Finset.sum_range_succ]
      have hdiag : LL i.val i.val * UU i.val k.val = st.amat i.val k.val := by
        rw [hLL, hUU]
        simp [hik]
      have hhead : ∑ m in Finset.range i.val, LL i.val m * UU m k.val
          = sumTo i.val (fun m => st.amat i.val m * st.amat m k.val) := by
        rw [sumTo_eq_sum]
        apply Finset.sum_congr rfl
        intro m hm
        have hm2 := Finset.mem_range.mp hm
        rw [hLL, hUU]
        simp only
        rw [if_pos hm2, if_pos (by omega)]
      rw [hdiag, hhead, he]
      ring
    · -- lower part: use the lEq equation at (k, i)
      have he := inv.lEq k.val k.isLt i.val hki i.isLt
      have hsplit : Finset.range N = Finset.range (k.val + 1) ∪ Finset.Ico (k.val + 1) N := by
        ext x
        simp only [Finset.mem_range, Finset.mem_union, Finset.mem_Ico]
        omega
      rw [hsplit, Finset.sum_union (by
          simp only [Finset.range_eq_Ico]
          exact Finset.Ico_disjoint_Ico_consecutive 0 (k.val + 1) N)]
      have htail : ∑ m in Finset.Ico (k.val + 1) N, LL i.val m * UU m k.val = 0 := by
        apply Finset.sum_eq_zero
        intro m hm
        have hm2 := Finset.mem_Ico.mp hm
        rw [hUU]
        simp only
        rw [if_neg (by omega), mul_zero]
      rw [htail, add_zero, Finset.sum_range_succ]
      have hdiag : LL i.val k.val * UU k.val k.val = st.amat i.val k.val * st.amat k.val k.val := by
        rw [hLL, hUU]
        simp [hki]
      have hhead : ∑ m in Finset.range k.val, LL i.val m * UU m k.val
          = sumTo k.val (fun m => st.amat i.val m * st.amat m k.val) := by
        rw [sumTo_eq_sum]
        apply Finset.sum_congr rfl
        intro m hm
        have hm2 := Finset.mem_range.mp hm
        rw [hLL, hUU]
        simp only
        rw [if_pos (by omega), if_pos (by omega)]
      rw [hdiag, hhead, he]
      ring
  have hdetLL : Matrix.det (toM N LL) = 1 := by
    have htri : (toM N LL).BlockTriangular ⇑OrderDual.toDual := by
      intro i j hij
      show LL i.val j.val = 0
      rw [hLL]
      simp only
      have hij2 : i.val < j.val := hij
      rw [if_neg (by omega), if_neg (by omega)]
    rw [Matrix.det_of_lowerTriangular (toM N LL) htri]
    apply Finset.prod_eq_one
    intro i _
    show LL i.val i.val = 1
    rw [hLL]
    simp
  have hdetUU : Matrix.det (toM N UU) = ∏ i : Fin N, st.amat i.val i.val := by
    have htri : (toM N UU).BlockTriangular id := by
      intro i j hij
      show UU i.val j.val = 0
      rw [hUU]
      simp only
      have hij2 : j.val < i.val := hij
      rw [if_neg (by omega)]
    rw [Matrix.det_of_upperTriangular htri]
    apply Finset.prod_congr rfl
    intro i _
    show UU i.val i.val = st.amat i.val i.val
    rw [hUU]
    simp
  have hd2 : st.d * st.d = 1 := by
    rcases inv.dpm with h | h <;> rw [h] <;> norm_num
  have hdeta : Matrix.det (toM N a) = st.d * ∏ i : Fin N, st.amat i.val i.val := by
    have h1 : st.d * Matrix.det (toM N a) = ∏ i : Fin N, st.amat i.val i.val := by
      rw [← inv.detI, hfact, Matrix.det_mul, hdetLL, hdetUU, one_mul]
    calc Matrix.det (toM N a) = st.d * st.d * Matrix.det (toM N a) := by rw [hd2, one_mul]
      _ = st.d * (st.d * Matrix.det (toM N a)) := by ring
      _ = st.d * ∏ i : Fin N, st.amat i.val i.val := by rw [h1]
  show (List.range N).foldl (fun r i =>
      r * (lu_decomposition N eps mu a (fun _ => 0)).amat i i)
      (lu_decomposition N eps mu a (fun _ => 0)).d = _
  rw [lu_eq_luLoop, ← hst, foldl_mul_eq, hdeta]
  congr 1
  rw [← Fin.prod_univ_eq_prod_range (fun i => st.amat i i) N]

theorem determinant2_eq_det (a : Mtx) : determinant2 a = Matrix.det (toM 2 a) := by
  rw [Matrix.det_fin_two]
  rfl

theorem determinant3_eq_det (a : Mtx) : determinant3 a = Matrix.det (toM 3 a) := by
  rw [Matrix.det_fin_three]
  show determinant3 a = a 0 0 * a 1 1 * a 2 2 - a 0 0 * a 1 2 * a 2 1 - a 0 1 * a 1 0 * a 2 2
    + a 0 1 * a 1 2 * a 2 0 + a 0 2 * a 1 0 * a 2 1 - a 0 2 * a 1 1 * a 2 0
  unfold determinant3
  ring

theorem determinant4_eq_det (a : Mtx) : determinant4 a = Matrix.det (toM 4 a) := by
  rw [Matrix.det_succ_row_zero]
  simp only [Fin.sum_univ_succ, Matrix.det_succ_row_zero, Fin.sum_univ_zero,
    Matrix.submatrix_apply, Matrix.det_unique, Fin.succAbove, Fin.castSucc, Fin.castAdd,
    Fin.castLE, Fin.lt_def, Fin.val_zero, Fin.val_succ, Fin.val_one]
  norm_num [toM, determinant4]
  ring

/-- C2 (amended): for every 2×2, 3×3 or 4×4 matrix on which `lu_decomposition`
succeeds (returns `true`), the closed-form cofactor-expansion determinant and the
generic determinant computed via LU decomposition (sign times the product of the
diagonal of the stored factor) agree exactly in exact arithmetic — so in floating
arithmetic they differ only by round-off.  When `lu_decomposition` fails, the
generic path can return a value that is wrong by far more than any floating
tolerance (see the counterexample), which is the only restriction added to the
original claim. -/
theorem C2_determinant_agreement (eps mu : ℚ) (heps : 0 < eps) :
    (∀ a : Mtx, (lu_decomposition 2 eps mu a (fun _ => 0)).ok = true →
        determinant2 a = determinantN 2 eps mu a)
      ∧ (∀ a : Mtx, (lu_decomposition 3 eps mu a (fun _ => 0)).ok = true →
        determinant3 a = determinantN 3 eps mu a)
      ∧ (∀ a : Mtx, (lu_decomposition 4 eps mu a (fun _ => 0)).ok = true →
        determinant4 a = determinantN 4 eps mu a) := by
  refine ⟨fun a hok => ?_, fun a hok => ?_, fun a hok => ?_⟩
  · rw [determinantN_correct 2 eps mu a heps hok, determinant2_eq_det]
  · rw [determinantN_correct 3 eps mu a heps hok, determinant3_eq_det]
  · rw [determinantN_correct 4 eps mu a heps hok, determinant4_eq_det]

/-- Witness for C2 at the concrete well-conditioned matrix `[[2,1],[1,3]]`. -/
theorem C2_determinant_agreement_witness :
    (0 : ℚ) < epsD
      ∧ (lu_decomposition 2 epsD muD
          (fun i j => if i = 0 ∧ j = 0 then 2 else if i = 1 ∧ j = 1 then 3 else 1)
          (fun _ => 0)).ok = true
      ∧ determinant2
          (fun i j => if i = 0 ∧ j = 0 then 2 else if i = 1 ∧ j = 1 then 3 else 1)
        = determinantN 2 epsD muD
          (fun i j => if i = 0 ∧ j = 0 then 2 else if i = 1 ∧ j = 1 then 3 else 1) := by
  have hok : (lu_decomposition 2 epsD muD
      (fun i j => if i = 0 ∧ j = 0 then 2 else if i = 1 ∧ j = 1 then 3 else 1)
      (fun _ => 0)).ok = true := by
    norm_num [lu_decomposition, luColStep, luImax, luB3, luPiv, luInit, luAlpha, luBeta,
      rowMaxAbs, swap_rows, swapFn, sumTo, upd, epsD, muD, abs_of_nonneg,
      List.range_succ, List.range']
  exact ⟨by norm_num [epsD], hok,
    (C2_determinant_agreement epsD muD (by norm_num [epsD])).1 _ hok⟩

-- ## Gauss-Jordan elimination with full pivoting (`inverse`, `gauss_jordan_elimination`)

/-- One recorded iteration of the Gauss-Jordan loop (proof instrumentation, the
embedded `indxr[i]`/`indxc[i]` arrays plus the checked pivot value): whether the
pivot search found a positive candidate (when it does not, the C++ reads
uninitialized `maxr`/`maxc` — undefined behaviour; the embedding's accumulator
resolves this as `(0,0)`), the chosen row and column, and the pivot value that was
checked against epsilon. -/
structure GJRec where
  found : Bool
  maxr : ℕ
  maxc : ℕ
  piv : ℚ

/-- State of the Gauss-Jordan loop over `amat` (the in-place inverse) and `bmat`
(the right-hand sides). -/
structure GJState where
  amat : Mtx
  bmat : Mtx
  ipiv : ℕ → ℕ
  ok : Bool
  steps : List GJRec

/-- The full-pivot search: the largest `|amat(j,k)|` over rows `j` with
`ipiv[j] != 1` and columns `k` with `ipiv[k] == 0` (strict `element > max`,
accumulator starting at `(0, 0, 0)`). -/
def pivotSearch (N : ℕ) (amat : Mtx) (ipiv : ℕ → ℕ) : ℚ × ℕ × ℕ :=
  (List.range N).foldl (fun acc j =>
    if ipiv j ≠ 1 then
      (List.range N).foldl (fun acc2 k =>
        if ipiv k = 0 then
          (if acc2.1 < |amat j k| then (|amat j k|, j, k) else acc2)
        else acc2) acc
    else acc) (0, 0, 0)

/-- The pivot row `maxr` chosen by the search on the current state. -/
def gjMaxr (N : ℕ) (s : GJState) : ℕ := (pivotSearch N s.amat s.ipiv).2.1

/-- The pivot column `maxc` chosen by the search on the current state. -/
def gjMaxc (N : ℕ) (s : GJState) : ℕ := (pivotSearch N s.amat s.ipiv).2.2

/-- `amat` after the row exchange `swap_rows(maxr, maxc)` (only when they differ). -/
def gjA1 (N : ℕ) (s : GJState) : Mtx :=
  if gjMaxr N s ≠ gjMaxc N s then swap_rows (gjMaxr N s) (gjMaxc N s) s.amat else s.amat

/-- `bmat` after the same row exchange. -/
def gjB1 (N : ℕ) (s : GJState) : Mtx :=
  if gjMaxr N s ≠ gjMaxc N s then swap_rows (gjMaxr N s) (gjMaxc N s) s.bmat else s.bmat

/-- The pivot value `amat(maxc, maxc)` checked against epsilon. -/
def gjPiv (N : ℕ) (s : GJState) : ℚ := gjA1 N s (gjMaxc N s) (gjMaxc N s)

/-- `amat` after the in-place pivot-row scaling: `amat(maxc,maxc) = 1` is written
first, then the whole pivot row is multiplied by `1/pivot`. -/
def gjA2 (N : ℕ) (s : GJState) : Mtx := fun i j =>
  if i = gjMaxc N s then (1 / gjPiv N s) * (if j = gjMaxc N s then (1 : ℚ) else gjA1 N s i j)
  else gjA1 N s i j

/-- `bmat` after the pivot-row scaling. -/
def gjB2 (N : ℕ) (s : GJState) : Mtx := fun i j =>
  if i = gjMaxc N s then (1 / gjPiv N s) * gjB1 N s i j else gjB1 N s i j

/-- `amat` after the reduction of every non-pivot row: `dum = amat(j,maxc)` is
saved, `amat(j,maxc) = 0` is written, then the `k`-loop subtracts
`amat(maxc,k)·dum` from the whole row (including column `maxc`, so that column
receives the inverse's column data). -/
def gjA3 (N : ℕ) (s : GJState) : Mtx := fun i j =>
  if i = gjMaxc N s then gjA2 N s i j else
    (if j = gjMaxc N s then (0 : ℚ) else gjA2 N s i j)
      - gjA2 N s (gjMaxc N s) j * gjA2 N s i (gjMaxc N s)

/-- `bmat` after the reduction of every non-pivot row. -/
def gjB3 (N : ℕ) (s : GJState) : Mtx := fun i j =>
  if i = gjMaxc N s then gjB2 N s i j else
    gjB2 N s i j - gjB2 N s (gjMaxc N s) j * gjA2 N s i (gjMaxc N s)

/-- One iteration of the Gauss-Jordan loop (no-op once `false` was returned):
pivot search, `++ipiv[maxc]`, row exchange, singularity check, then the in-place
pivot-row scaling and row reductions. -/
def gjStep (N : ℕ) (eps : ℚ) (s : GJState) : GJState :=
  if s.ok = false then s else
  let ipiv1 := fun k => if k = gjMaxc N s then s.ipiv k + 1 else s.ipiv k
  let steps1 := s.steps ++
    [⟨decide (0 < (pivotSearch N s.amat s.ipiv).1), gjMaxr N s, gjMaxc N s, gjPiv N s⟩]
  if |gjPiv N s| < eps then
    { amat := gjA1 N s, bmat := gjB1 N s, ipiv := ipiv1, ok := false, steps := steps1 }
  else
    { amat := gjA3 N s, bmat := gjB3 N s, ipiv := ipiv1, ok := s.ok, steps := steps1 }

/-- The failure branch of one Gauss-Jordan step, as an explicit record. -/
theorem gjStep_fail_eq (N : ℕ) (eps : ℚ) (s : GJState) (h0 : s.ok = true)
    (hg : |gjPiv N s| < eps) :
    gjStep N eps s =
      { amat := gjA1 N s, bmat := gjB1 N s,
        ipiv := fun k => if k = gjMaxc N s then s.ipiv k + 1 else s.ipiv k,
        ok := false,
        steps := s.steps ++
          [⟨decide (0 < (pivotSearch N s.amat s.ipiv).1), gjMaxr N s, gjMaxc N s, gjPiv N s⟩] } := by
  rw [gjStep, if_neg (by simp [h0]), if_pos hg]

/-- The success branch of one Gauss-Jordan step, as an explicit record. -/
theorem gjStep_succ_eq (N : ℕ) (eps : ℚ) (s : GJState) (h0 : s.ok = true)
    (hg : ¬ |gjPiv N s| < eps) :
    gjStep N eps s =
      { amat := gjA3 N s, bmat := gjB3 N s,
        ipiv := fun k => if k = gjMaxc N s then s.ipiv k + 1 else s.ipiv k,
        ok := true,
        steps := s.steps ++
          [⟨decide (0 < (pivotSearch N s.amat s.ipiv).1), gjMaxr N s, gjMaxc N s, gjPiv N s⟩] } := by
  rw [gjStep, if_neg (by simp [h0]), if_neg hg, h0]

/-- The Gauss-Jordan column loop (`for (i = 0; i < N; ++i)`; the index is used
only for the `indxr`/`indxc` bookkeeping, which the recorded `steps` carry). -/
def gjLoop (N : ℕ) (eps : ℚ) (a b : Mtx) : ℕ → GJState
  | 0 => { amat := a, bmat := b, ipiv := fun _ => 0, ok := true, steps := [] }
  | n + 1 => gjStep N eps (gjLoop N eps a b n)

/-- The final column unscrambling: `for (i = N-1; i+1 > 0; --i) if (indxr[i] !=
indxc[i]) swap_cols(indxr[i], indxc[i])` — the recorded exchanges applied to the
columns in reverse order. -/
def gjUnscramble (steps : List GJRec) (A : Mtx) : Mtx :=
  steps.reverse.foldl
    (fun B r => if r.maxr ≠ r.maxc then swap_cols r.maxr r.maxc B else B) A

/-- The unscrambling runs only when the loop completed (on failure both `inverse`
and `gauss_jordan_elimination` return before reaching it). -/
def gjFinish (s : GJState) : GJState :=
  if s.ok = true then { s with amat := gjUnscramble s.steps s.amat } else s

/-- The generic `inverse(Mat<N,N>)`: Gauss-Jordan with full pivoting on `amat`
alone (no right-hand sides; on failure it logs an error and returns the partial
result). -/
def inverseN (N : ℕ) (eps : ℚ) (a : Mtx) : Mtx :=
  (gjFinish (gjLoop N eps a (fun _ _ => 0) N)).amat

/-- `gauss_jordan_elimination(a, b, ainv, x)`: the output buffers' previous
contents `ainv0`, `x0` are overwritten by `*ainv = a; *x = b` at entry, so the
result never depends on them. -/
def gauss_jordan_elimination (N : ℕ) (eps : ℚ) (a b ainv0 x0 : Mtx) :
    Bool × Mtx × Mtx :=
  let s := gjFinish (gjLoop N eps a b N)
  (s.ok, s.amat, s.bmat)

/-- The success flag of the Gauss-Jordan loop is `true` exactly when every
recorded pivot passed the (strict) epsilon check. -/
theorem gj_ok_iff_steps (N : ℕ) (eps : ℚ) (a b : Mtx) (n : ℕ) :
    (gjLoop N eps a b n).ok = true
      ↔ ∀ r ∈ (gjLoop N eps a b n).steps, ¬ |r.piv| < eps := by
  induction n with
  | zero => simp [gjLoop]
  | succ m ih =>
    have hL : gjLoop N eps a b (m + 1) = gjStep N eps (gjLoop N eps a b m) := rfl
    rw [hL]
    cases hb : (gjLoop N eps a b m).ok with
    | false =>
      have hid : gjStep N eps (gjLoop N eps a b m) = gjLoop N eps a b m := by
        rw [gjStep, if_pos hb]
      rw [hid]
      exact ih
    | true =>
      by_cases hg : |gjPiv N (gjLoop N eps a b m)| < eps
      · rw [gjStep_fail_eq N eps _ hb hg]
        constructor
        · intro h
          exact absurd h (by simp)
        · intro h
          exfalso
          exact absurd hg (h ⟨decide (0 < (pivotSearch N (gjLoop N eps a b m).amat
              (gjLoop N eps a b m).ipiv).1), gjMaxr N (gjLoop N eps a b m),
              gjMaxc N (gjLoop N eps a b m), gjPiv N (gjLoop N eps a b m)⟩
            (List.mem_append_right _ (List.mem_singleton.mpr rfl)))
      · rw [gjStep_succ_eq N eps _ hb hg]
        constructor
        · intro _ r hr
          rcases List.mem_append.mp hr with h2 | h2
          · exact (ih.mp hb) r h2
          · rw [List.mem_singleton.mp h2]
            exact hg
        · intro _
          rfl

theorem gjFinish_ok (s : GJState) : (gjFinish s).ok = s.ok := by
  unfold gjFinish
  by_cases h : s.ok = true
  · rw [if_pos h]
  · rw [if_neg h]

/-- C3 (amended): `gauss_jordan_elimination(A, B)` returns `false` exactly when
some chosen full pivot has magnitude *strictly below* the fixed epsilon (at
magnitude exactly epsilon it proceeds and returns `true`); mathematical
non-singularity of `A` is neither sufficient for `true` nor necessary for
`false`. -/
theorem C3_flag_iff_pivot (N : ℕ) (eps : ℚ) (a b ainv0 x0 : Mtx) :
    (gauss_jordan_elimination N eps a b ainv0 x0).1 = false
      ↔ ∃ r ∈ (gjLoop N eps a b N).steps, |r.piv| < eps := by
  show (gjFinish (gjLoop N eps a b N)).ok = false ↔ _
  rw [gjFinish_ok]
  cases hb : (gjLoop N eps a b N).ok with
  | false =>
    constructor
    · intro _
      have h2 := (gj_ok_iff_steps N eps a b N).not.mp (by simp [hb])
      push_neg at h2
      obtain ⟨r, hr, hlt⟩ := h2
      exact ⟨r, hr, hlt⟩
    · intro _
      rfl
  | true =>
    constructor
    · intro h
      exact absurd h (by simp)
    · rintro ⟨r, hr, hlt⟩
      exact absurd hlt ((gj_ok_iff_steps N eps a b N).mp hb r hr)

/-- C3 counterexample, two parts.  (1) On the 1×1 matrix `[[1e-10]]` the chosen
pivot magnitude is exactly the epsilon — "at" the threshold — yet the function
returns `true` (the check is the strict `< epsilon`).  (2) On the mathematically
non-singular `[[2,0],[0,5e-11]]` (determinant `1e-10 ≠ 0`) it returns `false`:
"returns false exactly when A is singular / for every non-singular A it returns
true" fails in both directions. -/
theorem C3_counterexample :
    (gauss_jordan_elimination 1 epsD (fun _ _ => epsD) (fun _ _ => 1) idm idm).1 = true
      ∧ (gjLoop 1 epsD (fun _ _ => epsD) (fun _ _ => 1) 1).steps
          = [⟨true, 0, 0, epsD⟩]
      ∧ (gauss_jordan_elimination 2 epsD
          (fun i j => if i = 0 ∧ j = 0 then 2 else if i = 1 ∧ j = 1 then 1 / (2 * 10 ^ 10) else 0)
          (fun _ _ => 1) idm idm).1 = false
      ∧ determinant2
          (fun i j => if i = 0 ∧ j = 0 then 2 else if i = 1 ∧ j = 1 then 1 / (2 * 10 ^ 10) else 0)
          = 1 / 10 ^ 10 := by
  refine ⟨?_, ?_, ?_, by norm_num [determinant2]⟩
  · norm_num [gauss_jordan_elimination, gjFinish, gjFinish_ok, gjLoop, gjStep, gjA3, gjB3,
      gjA2, gjB2, gjA1, gjB1, gjPiv, gjMaxr, gjMaxc, pivotSearch, swap_rows, swapFn,
      upd, idm, epsD, abs_of_nonneg, List.range_succ]
  · norm_num [gjLoop, gjStep, gjA3, gjB3, gjA2, gjB2, gjA1, gjB1, gjPiv, gjMaxr, gjMaxc,
      pivotSearch, swap_rows, swapFn, upd, epsD, abs_of_nonneg, List.range_succ]
  · norm_num [gauss_jordan_elimination, gjFinish, gjFinish_ok, gjLoop, gjStep, gjA3, gjB3,
      gjA2, gjB2, gjA1, gjB1, gjPiv, gjMaxr, gjMaxc, pivotSearch, swap_rows, swapFn,
      upd, idm, epsD, abs_of_nonneg, List.range_succ]

/-- C9: (1) the outputs of `gauss_jordan_elimination` never depend on the previous
contents of the output buffers — `*ainv = a; *x = b` overwrite them at entry; and
(2) on a concrete input whose second pivot trips the epsilon guard, the function
returns `false` with both buffers already partially reduced (the pivot row of the
copies of `a` and `b` has been scaled by `1/2`), so the operation is not atomic on
error: the caller's previous contents are gone and the buffers do not hold usable
output. -/
theorem C9_failure_clobbers_outputs :
    (∀ (N : ℕ) (eps : ℚ) (a b p1 q1 p2 q2 : Mtx),
        gauss_jordan_elimination N eps a b p1 q1 = gauss_jordan_elimination N eps a b p2 q2)
      ∧ (gauss_jordan_elimination 2 epsD
          (fun i j => if i = 0 ∧ j = 0 then 2 else if i = 1 ∧ j = 1 then 1 / (2 * 10 ^ 10) else 0)
          (fun i _ => if i = 0 then 1 else 0)
          (fun _ _ => 77) (fun _ _ => 77)).1 = false
      ∧ (gauss_jordan_elimination 2 epsD
          (fun i j => if i = 0 ∧ j = 0 then 2 else if i = 1 ∧ j = 1 then 1 / (2 * 10 ^ 10) else 0)
          (fun i _ => if i = 0 then 1 else 0)
          (fun _ _ => 77) (fun _ _ => 77)).2.1 0 0 = 1 / 2
      ∧ (gauss_jordan_elimination 2 epsD
          (fun i j => if i = 0 ∧ j = 0 then 2 else if i = 1 ∧ j = 1 then 1 / (2 * 10 ^ 10) else 0)
          (fun i _ => if i = 0 then 1 else 0)
          (fun _ _ => 77) (fun _ _ => 77)).2.2 0 0 = 1 / 2 := by
  refine ⟨fun N eps a b p1 q1 p2 q2 => rfl, ?_, ?_, ?_⟩ <;>
    norm_num [gauss_jordan_elimination, gjFinish, gjFinish_ok, gjLoop, gjStep, gjA3, gjB3,
      gjA2, gjB2, gjA1, gjB1, gjPiv, gjMaxr, gjMaxc, pivotSearch, swap_rows, swapFn,
      upd, epsD, abs_of_nonneg, List.range_succ]

/-- C1 counterexample: the ill-scaled non-singular `A = diag(1e10, 1e-11)` has
determinant `0.1`, far above any reasonable epsilon (in particular `> 1e-6`), yet
the full-pivot Gauss-Jordan `inverse` hits its pivot guard on the second pivot
(`1e-11 < 1e-10`), returns the partially reduced matrix, and `A * inverse(A)` has
`1e-22` — not approximately `1` — at entry `(1,1)`: it is not approximately the
identity within any small tolerance (off by almost 1, certainly more than
`1/1000`). -/
theorem C1_counterexample :
    determinant2 (fun i j => if i = 0 ∧ j = 0 then 10 ^ 10
        else if i = 1 ∧ j = 1 then 1 / 10 ^ 11 else 0) = 1 / 10
      ∧ ((1 : ℚ) / 10 > 1 / 10 ^ 6)
      ∧ matMul 2 (fun i j => if i = 0 ∧ j = 0 then 10 ^ 10
            else if i = 1 ∧ j = 1 then 1 / 10 ^ 11 else 0)
          (inverseN 2 epsD (fun i j => if i = 0 ∧ j = 0 then 10 ^ 10
            else if i = 1 ∧ j = 1 then 1 / 10 ^ 11 else 0)) 1 1 = 1 / 10 ^ 22
      ∧ |(1 : ℚ) - 1 / 10 ^ 22| > 1 / 10 ^ 3 := by
  refine ⟨by norm_num [determinant2], by norm_num, ?_, by rw [abs_of_pos (by norm_num)]; norm_num⟩
  norm_num [inverseN, matMul, sumTo, gauss_jordan_elimination, gjFinish, gjFinish_ok,
    gjLoop, gjStep, gjA3, gjB3, gjA2, gjB2, gjA1, gjB1, gjPiv, gjMaxr, gjMaxc,
    pivotSearch, swap_rows, swapFn, upd, epsD, abs_of_nonneg, List.range_succ]

/- ### Correctness of the Gauss-Jordan inverse (C1)

The in-place `inverse` stores a mix of the reduced input and of the growing
inverse in one buffer.  To reason about it we replay the recorded pivot steps on
a ghost augmented pair `(C, D)`: `C` starts as the input `a` and `D` as the
identity, and every row operation the code performs on `amat` is performed on
both.  `C = D * a` is preserved throughout, pivoted columns of `amat` hold
columns of `D` (up to the accumulated row-exchange permutation) and pivoted
columns of `C` are unit columns, so after `N` successful steps the unscrambled
buffer is exactly `D` with `D * a = I`. -/

/-- Ghost pair, stage 1: the row exchange `swap_rows(maxr, maxc)` applied to `C`. -/
def cdC1 (r c : ℕ) (CD : Mtx × Mtx) : Mtx := swap_rows r c CD.1

/-- Ghost pair, stage 1: the same row exchange applied to `D`. -/
def cdD1 (r c : ℕ) (CD : Mtx × Mtx) : Mtx := swap_rows r c CD.2

/-- The pivot value seen by the ghost pair (entry `(maxc, maxc)` after the swap). -/
def cdP (r c : ℕ) (CD : Mtx × Mtx) : ℚ := cdC1 r c CD c c

/-- Ghost pair, stage 2: the pivot row of `C` scaled by `1/pivot`. -/
def cdC2 (r c : ℕ) (CD : Mtx × Mtx) : Mtx := fun i j =>
  if i = c then (1 / cdP r c CD) * cdC1 r c CD i j else cdC1 r c CD i j

/-- Ghost pair, stage 2: the pivot row of `D` scaled by `1/pivot`. -/
def cdD2 (r c : ℕ) (CD : Mtx × Mtx) : Mtx := fun i j =>
  if i = c then (1 / cdP r c CD) * cdD1 r c CD i j else cdD1 r c CD i j

/-- Ghost pair, stage 3: every non-pivot row of `C` reduced by `dum = C(i, maxc)`
times the pivot row. -/
def cdC3 (r c : ℕ) (CD : Mtx × Mtx) : Mtx := fun i j =>
  if i = c then cdC2 r c CD i j
  else cdC2 r c CD i j - cdC2 r c CD c j * cdC2 r c CD i c

/-- Ghost pair, stage 3: the same reductions applied to `D` (the multipliers
`dum` are read off `C`). -/
def cdD3 (r c : ℕ) (CD : Mtx × Mtx) : Mtx := fun i j =>
  if i = c then cdD2 r c CD i j
  else cdD2 r c CD i j - cdD2 r c CD c j * cdC2 r c CD i c

/-- One ghost step: the row operations of one Gauss-Jordan iteration applied to
the augmented pair. -/
def cdStep (r c : ℕ) (CD : Mtx × Mtx) : Mtx × Mtx := (cdC3 r c CD, cdD3 r c CD)

/-- The ghost pair obtained by replaying a list of recorded pivot steps on
`(a, I)`. -/
def replayCD (a : Mtx) (L : List GJRec) : Mtx × Mtx :=
  L.foldl (fun CD s => cdStep s.maxr s.maxc CD) (a, idm)

/-- The row permutation accumulated by the recorded exchanges, latest exchange
innermost (matching `permOf` on the pairs `(maxr, maxc)`). -/
def piOf (L : List GJRec) (x : ℕ) : ℕ := permOf (L.map fun s => (s.maxr, s.maxc)) x

/-- The column permutation applied by the final unscrambling loop (the same
exchanges in the reverse order). -/
def psiOf (L : List GJRec) (x : ℕ) : ℕ := L.foldl (fun y s => swapFn s.maxr s.maxc y) x

theorem replayCD_append (a : Mtx) (L : List GJRec) (s : GJRec) :
    replayCD a (L ++ [s]) = cdStep s.maxr s.maxc (replayCD a L) := by
  unfold replayCD
  rw [List.foldl_append]
  rfl

theorem piOf_nil (x : ℕ) : piOf [] x = x := rfl

theorem piOf_append (L : List GJRec) (s : GJRec) (x : ℕ) :
    piOf (L ++ [s]) x = piOf L (swapFn s.maxr s.maxc x) := by
  show permOf ((L ++ [s]).map _) x = _
  rw [List.map_append]
  exact permOf_append _ _ x

theorem piOf_lt {N : ℕ} {L : List GJRec} (hL : ∀ s ∈ L, s.maxr < N ∧ s.maxc < N)
    {x : ℕ} (hx : x < N) : piOf L x < N := by
  apply permOf_lt _ hx
  intro p hp
  obtain ⟨s, hs, hps⟩ := List.mem_map.mp hp
  rw [← hps]
  exact hL s hs

theorem psiOf_lt {N : ℕ} {L : List GJRec} (hL : ∀ s ∈ L, s.maxr < N ∧ s.maxc < N)
    {x : ℕ} (hx : x < N) : psiOf L x < N := by
  induction L generalizing x with
  | nil => exact hx
  | cons s L ih =>
    show psiOf L (swapFn s.maxr s.maxc x) < N
    exact ih (fun q hq => hL q (List.mem_cons_of_mem s hq))
      (swapFn_lt _ _ _ _ (hL s (List.mem_cons_self s L)).1 (hL s (List.mem_cons_self s L)).2 hx)

/-- The unscrambling permutation inverts the accumulated row-exchange
permutation (each exchange is an involution). -/
theorem pi_psi (L : List GJRec) (x : ℕ) : piOf L (psiOf L x) = x := by
  induction L generalizing x with
  | nil => rfl
  | cons s L ih =>
    show swapFn s.maxr s.maxc (piOf L (psiOf L (swapFn s.maxr s.maxc x))) = x
    rw [ih, swapFn_invol]

/-- The final unscrambling loop is the application of `psiOf` to the column
index. -/
theorem gjUnscramble_apply (L : List GJRec) (A : Mtx) (i j : ℕ) :
    gjUnscramble L A i j = A i (psiOf L j) := by
  dsimp only [gjUnscramble]
  rw [List.foldl_reverse]
  induction L generalizing j with
  | nil => rfl
  | cons s L ih =>
    show (if s.maxr ≠ s.maxc then swap_cols s.maxr s.maxc (List.foldr _ A L)
        else List.foldr _ A L) i j = A i (psiOf L (swapFn s.maxr s.maxc j))
    by_cases h : s.maxr ≠ s.maxc
    · rw [if_pos h]
      exact ih (swapFn s.maxr s.maxc j)
    · rw [if_neg h]
      push_neg at h
      rw [h, swapFn_self]
      exact ih j

theorem sumTo_sub (n : ℕ) (f g : ℕ → ℚ) :
    sumTo n (fun k => f k - g k) = sumTo n f - sumTo n g := by
  rw [sumTo_eq_sum, sumTo_eq_sum, sumTo_eq_sum]
  exact Finset.sum_sub_distrib

theorem sumTo_mul_left (n : ℕ) (f : ℕ → ℚ) (a : ℚ) :
    sumTo n (fun k => a * f k) = a * sumTo n f := by
  rw [sumTo_eq_sum, sumTo_eq_sum]
  exact (Finset.mul_sum _ _ _).symm

theorem sumTo_mul_right (n : ℕ) (f : ℕ → ℚ) (a : ℚ) :
    sumTo n (fun k => f k * a) = sumTo n f * a := by
  rw [sumTo_eq_sum, sumTo_eq_sum]
  exact (Finset.sum_mul _ _ _).symm

theorem matMul_idm_left (N : ℕ) (a : Mtx) (i j : ℕ) (hi : i < N) :
    matMul N idm a i j = a i j := by
  show sumTo N (fun k => idm i k * a k j) = a i j
  rw [sumTo_eq_sum]
  have h1 : ∀ k, idm i k * a k j = if i = k then a k j else 0 := by
    intro k
    by_cases h : i = k <;> simp [idm, h]
  calc ∑ k in Finset.range N, idm i k * a k j
      = ∑ k in Finset.range N, if i = k then a k j else 0 :=
        Finset.sum_congr rfl (fun k _ => h1 k)
    _ = a i j := by rw [Finset.sum_ite_eq, if_pos (Finset.mem_range.mpr hi)]

/-- `gjA1` in closed form: the row exchange as a composition with `swapFn`. -/
theorem gjA1_eq (N : ℕ) (s : GJState) (i j : ℕ) :
    gjA1 N s i j = s.amat (swapFn (gjMaxr N s) (gjMaxc N s) i) j := by
  unfold gjA1
  by_cases h : gjMaxr N s ≠ gjMaxc N s
  · rw [if_pos h]
    rfl
  · rw [if_neg h]
    push_neg at h
    rw [h, swapFn_self]

/-- Invariant preservation through a `List.foldl`. -/
theorem foldl_inv {α β : Type} (P : β → Prop) (f : β → α → β) (l : List α) (b : β)
    (hb : P b) (hf : ∀ y x, x ∈ l → P y → P (f y x)) : P (l.foldl f b) := by
  induction l generalizing b with
  | nil => exact hb
  | cons x xs ih =>
    exact ih (f b x) (hf b x (List.mem_cons_self x xs) hb)
      (fun y z hz hy => hf y z (List.mem_cons_of_mem x hz) hy)

/-- What the pivot-search accumulator guarantees: either nothing beat the
initial `max = 0`, or the returned `(maxr, maxc)` came from an admissible
position. -/
def pivP (N : ℕ) (ipiv : ℕ → ℕ) (acc : ℚ × ℕ × ℕ) : Prop :=
  acc.1 ≤ 0 ∨ (acc.2.1 < N ∧ acc.2.2 < N ∧ ipiv acc.2.1 ≠ 1 ∧ ipiv acc.2.2 = 0)

/-- When the pivot search found a strictly positive maximum, the returned pivot
position is in range, its row was available (`ipiv != 1`) and its column was
unpivoted (`ipiv == 0`).  (When nothing was found the C++ reads uninitialized
`maxr`/`maxc`; all our theorems carry the found-ness hypothesis.) -/
theorem pivotSearch_found (N : ℕ) (amat : Mtx) (ipiv : ℕ → ℕ)
    (h : 0 < (pivotSearch N amat ipiv).1) :
    (pivotSearch N amat ipiv).2.1 < N ∧ (pivotSearch N amat ipiv).2.2 < N ∧
      ipiv (pivotSearch N amat ipiv).2.1 ≠ 1 ∧ ipiv (pivotSearch N amat ipiv).2.2 = 0 := by
  have key : pivP N ipiv (pivotSearch N amat ipiv) := by
    show pivP N ipiv ((List.range N).foldl _ ((0 : ℚ), (0 : ℕ), (0 : ℕ)))
    apply foldl_inv (pivP N ipiv)
    · exact Or.inl le_rfl
    · intro y j hj hy
      dsimp only
      by_cases hj1 : ipiv j ≠ 1
      · rw [if_pos hj1]
        apply foldl_inv (pivP N ipiv) _ _ _ hy
        intro y2 k hk hy2
        dsimp only
        by_cases hk0 : ipiv k = 0
        · rw [if_pos hk0]
          by_cases hlt : y2.1 < |amat j k|
          · rw [if_pos hlt]
            exact Or.inr ⟨List.mem_range.mp hj, List.mem_range.mp hk, hj1, hk0⟩
          · rw [if_neg hlt]
            exact hy2
        · rw [if_neg hk0]
          exact hy2
      · rw [if_neg hj1]
        exact hy
  rcases key with h0 | hgood
  · exact absurd h (not_lt.mpr h0)
  · exact hgood

theorem nodup_concat {l : List ℕ} {x : ℕ} (hl : l.Nodup) (hx : x ∉ l) : (l ++ [x]).Nodup := by
  rw [List.nodup_append]
  exact ⟨hl, List.nodup_singleton x, fun y hy hy2 => hx ((List.mem_singleton.mp hy2) ▸ hy)⟩

/-- The loop invariant of the Gauss-Jordan elimination run on `a`, after `n`
successful iterations.  `C`/`D` are the ghost augmented pair replayed from the
recorded steps: unpivoted columns of the buffer hold `C`, pivoted columns hold
the matching column of `D` (through the accumulated row-exchange permutation),
pivoted columns of `C` are unit columns, the not-yet-consumed columns of `D` are
still untouched unit columns, and `C = D * a` throughout. -/
structure GJInv (N : ℕ) (a : Mtx) (n : ℕ) (s : GJState) : Prop where
  okT : s.ok = true
  slen : s.steps.length = n
  bnd : ∀ q ∈ s.steps, q.maxr < N ∧ q.maxc < N
  nodup : (s.steps.map GJRec.maxc).Nodup
  ipivS : ∀ j, s.ipiv j = if j ∈ s.steps.map GJRec.maxc then 1 else 0
  unpiv : ∀ i < N, ∀ j < N, s.ipiv j = 0 →
    s.amat i j = (replayCD a s.steps).1 i j
  pivd : ∀ i < N, ∀ j < N, s.ipiv j = 1 →
    s.amat i j = (replayCD a s.steps).2 i (piOf s.steps j)
  unitC : ∀ i < N, ∀ j < N, s.ipiv j = 1 →
    (replayCD a s.steps).1 i j = if i = j then (1 : ℚ) else 0
  ghostU : ∀ i < N, s.ipiv i = 0 → ∀ j < N,
    (replayCD a s.steps).2 j (piOf s.steps i) = if j = i then (1 : ℚ) else 0
  prodI : ∀ i < N, ∀ j, (replayCD a s.steps).1 i j = matMul N (replayCD a s.steps).2 a i j

/-- One successful Gauss-Jordan iteration preserves the invariant: the pivot
search found something, and the pivot passed the epsilon guard. -/
theorem GJInv_step (N : ℕ) (eps : ℚ) (a : Mtx) (n : ℕ) (s : GJState)
    (heps : 0 < eps) (inv : GJInv N a n s)
    (hfnd : 0 < (pivotSearch N s.amat s.ipiv).1)
    (hnlt : ¬ |gjPiv N s| < eps) :
    GJInv N a (n + 1) (gjStep N eps s) := by
  obtain ⟨hrN, hcN, hr1, hc0⟩ := pivotSearch_found N s.amat s.ipiv hfnd
  have hrN' : gjMaxr N s < N := hrN
  have hcN' : gjMaxc N s < N := hcN
  have hr1' : s.ipiv (gjMaxr N s) ≠ 1 := hr1
  have hc0' : s.ipiv (gjMaxc N s) = 0 := hc0
  have hr0 : s.ipiv (gjMaxr N s) = 0 := by
    have h1 := inv.ipivS (gjMaxr N s)
    by_cases hm : gjMaxr N s ∈ s.steps.map GJRec.maxc
    · rw [if_pos hm] at h1
      exact absurd h1 hr1'
    · rw [if_neg hm] at h1
      exact h1
  have hcmem : gjMaxc N s ∉ s.steps.map GJRec.maxc := by
    intro hm
    have h1 := inv.ipivS (gjMaxc N s)
    rw [if_pos hm, hc0'] at h1
    omega
  have hpC : gjPiv N s = (replayCD a s.steps).1 (gjMaxr N s) (gjMaxc N s) := by
    show gjA1 N s (gjMaxc N s) (gjMaxc N s) = _
    rw [gjA1_eq, swapFn_right]
    exact inv.unpiv (gjMaxr N s) hrN' (gjMaxc N s) hcN' hc0'
  have hpP : cdP (gjMaxr N s) (gjMaxc N s) (replayCD a s.steps) = gjPiv N s := by
    show (replayCD a s.steps).1 (swapFn (gjMaxr N s) (gjMaxc N s) (gjMaxc N s)) (gjMaxc N s) = _
    rw [swapFn_right, hpC]
  have hpne : gjPiv N s ≠ 0 := by
    intro h0
    rw [h0, abs_zero] at hnlt
    exact hnlt heps
  have F_u1 : ∀ i < N, ∀ j < N, s.ipiv j = 0 →
      gjA1 N s i j = cdC1 (gjMaxr N s) (gjMaxc N s) (replayCD a s.steps) i j := by
    intro i hi j hj hj0
    rw [gjA1_eq]
    exact inv.unpiv _ (swapFn_lt _ _ _ _ hrN' hcN' hi) j hj hj0
  have F_p1 : ∀ i < N, ∀ j < N, s.ipiv j = 1 →
      gjA1 N s i j = cdD1 (gjMaxr N s) (gjMaxc N s) (replayCD a s.steps) i (piOf s.steps j) := by
    intro i hi j hj hj1
    rw [gjA1_eq]
    exact inv.pivd _ (swapFn_lt _ _ _ _ hrN' hcN' hi) j hj hj1
  have F_uc : ∀ i < N, i ≠ gjMaxc N s →
      gjA2 N s i (gjMaxc N s)
        = cdC2 (gjMaxr N s) (gjMaxc N s) (replayCD a s.steps) i (gjMaxc N s) := by
    intro i hi hic
    dsimp only [gjA2, cdC2]
    rw [if_neg hic, if_neg hic]
    exact F_u1 i hi (gjMaxc N s) hcN' hc0'
  have F_u2 : ∀ i < N, ∀ j < N, s.ipiv j = 0 → j ≠ gjMaxc N s →
      gjA2 N s i j = cdC2 (gjMaxr N s) (gjMaxc N s) (replayCD a s.steps) i j := by
    intro i hi j hj hj0 hjc
    dsimp only [gjA2, cdC2]
    by_cases hic : i = gjMaxc N s
    · rw [if_pos hic, if_pos hic, if_neg hjc, hpP, F_u1 i hi j hj hj0]
    · rw [if_neg hic, if_neg hic]
      exact F_u1 i hi j hj hj0
  have F_p2 : ∀ i < N, ∀ j < N, s.ipiv j = 1 →
      gjA2 N s i j = cdD2 (gjMaxr N s) (gjMaxc N s) (replayCD a s.steps) i (piOf s.steps j) := by
    intro i hi j hj hj1
    have hjc : j ≠ gjMaxc N s := by
      intro h
      rw [h, hc0'] at hj1
      omega
    dsimp only [gjA2, cdD2]
    by_cases hic : i = gjMaxc N s
    · rw [if_pos hic, if_pos hic, if_neg hjc, hpP, F_p1 i hi j hj hj1]
    · rw [if_neg hic, if_neg hic]
      exact F_p1 i hi j hj hj1
  have F_C2cc : cdC2 (gjMaxr N s) (gjMaxc N s) (replayCD a s.steps) (gjMaxc N s) (gjMaxc N s)
      = 1 := by
    dsimp only [cdC2]
    rw [if_pos rfl, hpP]
    show (1 / gjPiv N s) * cdP (gjMaxr N s) (gjMaxc N s) (replayCD a s.steps) = 1
    rw [hpP]
    exact one_div_mul_cancel hpne
  have F_D2r : ∀ j < N,
      cdD2 (gjMaxr N s) (gjMaxc N s) (replayCD a s.steps) j (piOf s.steps (gjMaxr N s))
        = if j = gjMaxc N s then 1 / gjPiv N s else 0 := by
    intro j hj
    dsimp only [cdD2, cdD1, swap_rows]
    by_cases hjc : j = gjMaxc N s
    · rw [if_pos hjc, if_pos hjc, hpP, hjc, swapFn_right]
      rw [inv.ghostU (gjMaxr N s) hrN' hr0 (gjMaxr N s) hrN']
      rw [if_pos rfl, mul_one]
    · rw [if_neg hjc, if_neg hjc]
      rw [inv.ghostU (gjMaxr N s) hrN' hr0 (swapFn (gjMaxr N s) (gjMaxc N s) j)
        (swapFn_lt _ _ _ _ hrN' hcN' hj)]
      have hne : swapFn (gjMaxr N s) (gjMaxc N s) j ≠ gjMaxr N s := by
        intro h
        have h2 := congrArg (swapFn (gjMaxr N s) (gjMaxc N s)) h
        rw [swapFn_invol, swapFn_left] at h2
        exact hjc h2
      rw [if_neg hne]
  rw [gjStep_succ_eq N eps s inv.okT hnlt]
  have hrep : replayCD a (s.steps ++
      [⟨decide (0 < (pivotSearch N s.amat s.ipiv).1), gjMaxr N s, gjMaxc N s, gjPiv N s⟩])
      = cdStep (gjMaxr N s) (gjMaxc N s) (replayCD a s.steps) := by
    rw [replayCD_append]
  have hpi : ∀ x, piOf (s.steps ++
      [⟨decide (0 < (pivotSearch N s.amat s.ipiv).1), gjMaxr N s, gjMaxc N s, gjPiv N s⟩]) x
      = piOf s.steps (swapFn (gjMaxr N s) (gjMaxc N s) x) := by
    intro x
    rw [piOf_append]
  refine ⟨rfl, ?_, ?_, ?_, ?_, ?_, ?_, ?_, ?_, ?_⟩
  · dsimp only
    simp [List.length_append, inv.slen]
  · intro q hq
    dsimp only at hq
    rcases List.mem_append.mp hq with h | h
    · exact inv.bnd q h
    · rw [List.mem_singleton] at h
      rw [h]
      exact ⟨hrN', hcN'⟩
  · dsimp only
    rw [List.map_append]
    show (List.map GJRec.maxc s.steps ++ [gjMaxc N s]).Nodup
    exact nodup_concat inv.nodup hcmem
  · intro j
    dsimp only
    rw [List.map_append]
    rw [show List.map GJRec.maxc
        [(⟨decide (0 < (pivotSearch N s.amat s.ipiv).1), gjMaxr N s, gjMaxc N s,
          gjPiv N s⟩ : GJRec)] = [gjMaxc N s] from rfl]
    by_cases hjc : j = gjMaxc N s
    · rw [if_pos hjc, hjc, hc0']
      have hm : gjMaxc N s ∈ List.map GJRec.maxc s.steps ++ [gjMaxc N s] :=
        List.mem_append_right _ (List.mem_singleton.mpr rfl)
      rw [if_pos hm]
    · rw [if_neg hjc, inv.ipivS j]
      by_cases hm : j ∈ List.map GJRec.maxc s.steps
      · rw [if_pos hm, if_pos (List.mem_append_left _ hm)]
      · have hm2 : j ∉ List.map GJRec.maxc s.steps ++ [gjMaxc N s] := by
          intro h
          rcases List.mem_append.mp h with h2 | h2
          · exact hm h2
          · exact hjc (List.mem_singleton.mp h2)
        rw [if_neg hm, if_neg hm2]
  · intro i hi j hj hj0
    dsimp only at hj0 ⊢
    have hjc : j ≠ gjMaxc N s := by
      intro h
      rw [if_pos h] at hj0
      omega
    rw [if_neg hjc] at hj0
    rw [hrep]
    show gjA3 N s i j = cdC3 (gjMaxr N s) (gjMaxc N s) (replayCD a s.steps) i j
    dsimp only [gjA3, cdC3]
    by_cases hic : i = gjMaxc N s
    · rw [if_pos hic, if_pos hic]
      exact F_u2 i hi j hj hj0 hjc
    · rw [if_neg hic, if_neg hic, if_neg hjc]
      rw [F_u2 i hi j hj hj0 hjc, F_u2 (gjMaxc N s) hcN' j hj hj0 hjc, F_uc i hi hic]
  · intro i hi j hj hj1
    dsimp only at hj1 ⊢
    rw [hrep, hpi j]
    by_cases hjc : j = gjMaxc N s
    · rw [hjc, swapFn_right]
      show gjA3 N s i (gjMaxc N s)
          = cdD3 (gjMaxr N s) (gjMaxc N s) (replayCD a s.steps) i (piOf s.steps (gjMaxr N s))
      dsimp only [gjA3, cdD3]
      by_cases hic : i = gjMaxc N s
      · rw [if_pos hic, if_pos hic, hic]
        dsimp only [gjA2]
        rw [if_pos rfl, if_pos rfl, mul_one, F_D2r (gjMaxc N s) hcN', if_pos rfl]
      · rw [if_neg hic, if_neg hic, if_pos rfl]
        rw [F_D2r i hi, if_neg hic, F_D2r (gjMaxc N s) hcN', if_pos rfl]
        rw [F_uc i hi hic]
        dsimp only [gjA2]
        rw [if_pos rfl, if_pos rfl, mul_one]
    · have hj1' : s.ipiv j = 1 := by rwa [if_neg hjc] at hj1
      have hjr : j ≠ gjMaxr N s := by
        intro h
        rw [h, hr0] at hj1'
        omega
      rw [swapFn_other _ _ hjr hjc]
      show gjA3 N s i j
          = cdD3 (gjMaxr N s) (gjMaxc N s) (replayCD a s.steps) i (piOf s.steps j)
      dsimp only [gjA3, cdD3]
      by_cases hic : i = gjMaxc N s
      · rw [if_pos hic, if_pos hic]
        exact F_p2 i hi j hj hj1'
      · rw [if_neg hic, if_neg hic, if_neg hjc]
        rw [F_p2 i hi j hj hj1', F_p2 (gjMaxc N s) hcN' j hj hj1', F_uc i hi hic]
  · intro i hi j hj hj1
    dsimp only at hj1 ⊢
    rw [hrep]
    show cdC3 (gjMaxr N s) (gjMaxc N s) (replayCD a s.steps) i j = _
    by_cases hjc : j = gjMaxc N s
    · dsimp only [cdC3]
      rw [hjc]
      by_cases hic : i = gjMaxc N s
      · rw [if_pos hic, hic, F_C2cc, if_pos rfl]
      · rw [if_neg hic, if_neg hic, F_C2cc]
        rw [one_mul, sub_self]
    · have hj1' : s.ipiv j = 1 := by rwa [if_neg hjc] at hj1
      have hjr : j ≠ gjMaxr N s := by
        intro h
        rw [h, hr0] at hj1'
        omega
      have hs : ∀ i2 : ℕ, swapFn (gjMaxr N s) (gjMaxc N s) i2 = j ↔ i2 = j := by
        intro i2
        constructor
        · intro h
          have h2 := congrArg (swapFn (gjMaxr N s) (gjMaxc N s)) h
          rw [swapFn_invol, swapFn_other _ _ hjr hjc] at h2
          exact h2
        · intro h
          rw [h]
          exact swapFn_other _ _ hjr hjc
      have hC1 : ∀ i2 < N, cdC1 (gjMaxr N s) (gjMaxc N s) (replayCD a s.steps) i2 j
          = if i2 = j then (1 : ℚ) else 0 := by
        intro i2 hi2
        show (replayCD a s.steps).1 (swapFn (gjMaxr N s) (gjMaxc N s) i2) j = _
        rw [inv.unitC _ (swapFn_lt _ _ _ _ hrN' hcN' hi2) j hj hj1']
        by_cases h : i2 = j
        · rw [if_pos ((hs i2).mpr h), if_pos h]
        · rw [if_neg (fun hh => h ((hs i2).mp hh)), if_neg h]
      have hC2 : ∀ i2 < N, cdC2 (gjMaxr N s) (gjMaxc N s) (replayCD a s.steps) i2 j
          = if i2 = j then (1 : ℚ) else 0 := by
        intro i2 hi2
        dsimp only [cdC2]
        by_cases h : i2 = gjMaxc N s
        · rw [if_pos h, hC1 i2 hi2]
          have hne : i2 ≠ j := by
            intro hh
            rw [hh] at h
            exact hjc h
          rw [if_neg hne, mul_zero]
        · rw [if_neg h]
          exact hC1 i2 hi2
      dsimp only [cdC3]
      by_cases hic : i = gjMaxc N s
      · rw [if_pos hic]
        exact hC2 i hi
      · rw [if_neg hic, hC2 i hi, hC2 (gjMaxc N s) hcN']
        have hcj : gjMaxc N s ≠ j := fun h => hjc h.symm
        rw [if_neg hcj, zero_mul, sub_zero]
  · intro i hi hi0 j hj
    dsimp only at hi0 ⊢
    have hic : i ≠ gjMaxc N s := by
      intro h
      rw [if_pos h] at hi0
      omega
    rw [if_neg hic] at hi0
    rw [hrep, hpi i]
    show cdD3 (gjMaxr N s) (gjMaxc N s) (replayCD a s.steps) j
        (piOf s.steps (swapFn (gjMaxr N s) (gjMaxc N s) i)) = _
    by_cases hir : i = gjMaxr N s
    · rw [hir, swapFn_left]
      have hrc : gjMaxr N s ≠ gjMaxc N s := fun h => hic (hir.trans h)
      have hD1 : ∀ j2 < N,
          cdD1 (gjMaxr N s) (gjMaxc N s) (replayCD a s.steps) j2 (piOf s.steps (gjMaxc N s))
            = if j2 = gjMaxr N s then (1 : ℚ) else 0 := by
        intro j2 hj2
        show (replayCD a s.steps).2 (swapFn (gjMaxr N s) (gjMaxc N s) j2)
            (piOf s.steps (gjMaxc N s)) = _
        rw [inv.ghostU (gjMaxc N s) hcN' hc0' _ (swapFn_lt _ _ _ _ hrN' hcN' hj2)]
        have hs : swapFn (gjMaxr N s) (gjMaxc N s) j2 = gjMaxc N s ↔ j2 = gjMaxr N s := by
          constructor
          · intro h
            have h2 := congrArg (swapFn (gjMaxr N s) (gjMaxc N s)) h
            rw [swapFn_invol, swapFn_right] at h2
            exact h2
          · intro h
            rw [h, swapFn_left]
        by_cases h : j2 = gjMaxr N s
        · rw [if_pos (hs.mpr h), if_pos h]
        · rw [if_neg (fun hh => h (hs.mp hh)), if_neg h]
      have hD2 : ∀ j2 < N,
          cdD2 (gjMaxr N s) (gjMaxc N s) (replayCD a s.steps) j2 (piOf s.steps (gjMaxc N s))
            = if j2 = gjMaxr N s then (1 : ℚ) else 0 := by
        intro j2 hj2
        dsimp only [cdD2]
        by_cases h : j2 = gjMaxc N s
        · rw [if_pos h, hD1 j2 hj2]
          have hne : j2 ≠ gjMaxr N s := by
            intro hh
            rw [hh] at h
            exact hrc h
          rw [if_neg hne, mul_zero]
        · rw [if_neg h]
          exact hD1 j2 hj2
      dsimp only [cdD3]
      by_cases hjc2 : j = gjMaxc N s
      · rw [if_pos hjc2]
        exact hD2 j hj
      · rw [if_neg hjc2, hD2 j hj, hD2 (gjMaxc N s) hcN']
        have hcr : gjMaxc N s ≠ gjMaxr N s := fun h => hrc h.symm
        rw [if_neg hcr, zero_mul, sub_zero]
    · rw [swapFn_other _ _ hir hic]
      have hD1 : ∀ j2 < N,
          cdD1 (gjMaxr N s) (gjMaxc N s) (replayCD a s.steps) j2 (piOf s.steps i)
            = if j2 = i then (1 : ℚ) else 0 := by
        intro j2 hj2
        show (replayCD a s.steps).2 (swapFn (gjMaxr N s) (gjMaxc N s) j2)
            (piOf s.steps i) = _
        rw [inv.ghostU i hi hi0 _ (swapFn_lt _ _ _ _ hrN' hcN' hj2)]
        have hs : swapFn (gjMaxr N s) (gjMaxc N s) j2 = i ↔ j2 = i := by
          constructor
          · intro h
            have h2 := congrArg (swapFn (gjMaxr N s) (gjMaxc N s)) h
            rw [swapFn_invol, swapFn_other _ _ hir hic] at h2
            exact h2
          · intro h
            rw [h]
            exact swapFn_other _ _ hir hic
        by_cases h : j2 = i
        · rw [if_pos (hs.mpr h), if_pos h]
        · rw [if_neg (fun hh => h (hs.mp hh)), if_neg h]
      have hD2 : ∀ j2 < N,
          cdD2 (gjMaxr N s) (gjMaxc N s) (replayCD a s.steps) j2 (piOf s.steps i)
            = if j2 = i then (1 : ℚ) else 0 := by
        intro j2 hj2
        dsimp only [cdD2]
        by_cases h : j2 = gjMaxc N s
        · rw [if_pos h, hD1 j2 hj2]
          have hne : j2 ≠ i := by
            intro hh
            rw [hh] at h
            exact hic h
          rw [if_neg hne, mul_zero]
        · rw [if_neg h]
          exact hD1 j2 hj2
      dsimp only [cdD3]
      by_cases hjc2 : j = gjMaxc N s
      · rw [if_pos hjc2]
        exact hD2 j hj
      · rw [if_neg hjc2, hD2 j hj, hD2 (gjMaxc N s) hcN']
        have hcne : gjMaxc N s ≠ i := fun h => hic h.symm
        rw [if_neg hcne, zero_mul, sub_zero]
  · intro i hi j
    dsimp only
    rw [hrep]
    show cdC3 (gjMaxr N s) (gjMaxc N s) (replayCD a s.steps) i j
        = matMul N (cdD3 (gjMaxr N s) (gjMaxc N s) (replayCD a s.steps)) a i j
    have h1 : ∀ i2, i2 < N → ∀ j2,
        cdC1 (gjMaxr N s) (gjMaxc N s) (replayCD a s.steps) i2 j2
          = matMul N (cdD1 (gjMaxr N s) (gjMaxc N s) (replayCD a s.steps)) a i2 j2 := by
      intro i2 hi2 j2
      show (replayCD a s.steps).1 (swapFn (gjMaxr N s) (gjMaxc N s) i2) j2
          = sumTo N (fun k => (replayCD a s.steps).2 (swapFn (gjMaxr N s) (gjMaxc N s) i2) k
              * a k j2)
      exact inv.prodI _ (swapFn_lt _ _ _ _ hrN' hcN' hi2) j2
    have h2 : ∀ i2, i2 < N → ∀ j2,
        cdC2 (gjMaxr N s) (gjMaxc N s) (replayCD a s.steps) i2 j2
          = matMul N (cdD2 (gjMaxr N s) (gjMaxc N s) (replayCD a s.steps)) a i2 j2 := by
      intro i2 hi2 j2
      dsimp only [cdC2]
      by_cases h : i2 = gjMaxc N s
      · rw [if_pos h, h1 i2 hi2 j2]
        dsimp only [matMul]
        rw [← sumTo_mul_left]
        apply sumTo_congr
        intro k hk
        dsimp only [cdD2]
        rw [if_pos h]
        ring
      · rw [if_neg h, h1 i2 hi2 j2]
        dsimp only [matMul]
        apply sumTo_congr
        intro k hk
        dsimp only [cdD2]
        rw [if_neg h]
    dsimp only [cdC3, matMul]
    by_cases hic : i = gjMaxc N s
    · rw [if_pos hic, h2 i hi j]
      dsimp only [matMul]
      apply sumTo_congr
      intro k hk
      dsimp only [cdD3]
      rw [if_pos hic]
    · rw [if_neg hic, h2 i hi j, h2 (gjMaxc N s) hcN' j]
      dsimp only [matMul]
      rw [← sumTo_mul_right, ← sumTo_sub]
      apply sumTo_congr
      intro k hk
      dsimp only [cdD3]
      rw [if_neg hic]
      ring

theorem gjStep_ok_false (N : ℕ) (eps : ℚ) (s : GJState) (h : s.ok = false) :
    (gjStep N eps s).ok = false := by
  unfold gjStep
  rw [if_pos h]
  exact h

/-- The invariant holds after any number of Gauss-Jordan iterations that
completed with success flag `true`, with a found pivot recorded at every
step. -/
theorem GJInv_loop (N : ℕ) (eps : ℚ) (a b : Mtx) (heps : 0 < eps) :
    ∀ n : ℕ, (gjLoop N eps a b n).ok = true →
      (∀ q ∈ (gjLoop N eps a b n).steps, q.found = true) →
      GJInv N a n (gjLoop N eps a b n) := by
  intro n
  induction n with
  | zero =>
    intro hok hfound
    refine ⟨rfl, rfl, ?_, ?_, ?_, ?_, ?_, ?_, ?_, ?_⟩
    · intro q hq
      exact absurd hq (List.not_mem_nil q)
    · exact List.nodup_nil
    · intro j
      show (0 : ℕ) = if j ∈ List.map GJRec.maxc ([] : List GJRec) then 1 else 0
      simp
    · intro i hi j hj h0
      rfl
    · intro i hi j hj h1
      have hz : (gjLoop N eps a b 0).ipiv j = 0 := rfl
      rw [hz] at h1
      omega
    · intro i hi j hj h1
      have hz : (gjLoop N eps a b 0).ipiv j = 0 := rfl
      rw [hz] at h1
      omega
    · intro i hi h0 j hj
      rfl
    · intro i hi j
      exact (matMul_idm_left N a i j hi).symm
  | succ n ih =>
    intro hok hfound
    have hokn : (gjLoop N eps a b n).ok = true := by
      by_contra hcon
      rw [Bool.not_eq_true] at hcon
      have hfix : (gjLoop N eps a b (n + 1)).ok = false := by
        show (gjStep N eps (gjLoop N eps a b n)).ok = false
        exact gjStep_ok_false N eps _ hcon
      rw [hfix] at hok
      exact absurd hok (by decide)
    by_cases hlt : |gjPiv N (gjLoop N eps a b n)| < eps
    · exfalso
      have hfail := gjStep_fail_eq N eps (gjLoop N eps a b n) hokn hlt
      have hfix : (gjLoop N eps a b (n + 1)).ok = false := by
        show (gjStep N eps (gjLoop N eps a b n)).ok = false
        rw [hfail]
      rw [hfix] at hok
      exact absurd hok (by decide)
    · have hstep := gjStep_succ_eq N eps (gjLoop N eps a b n) hokn hlt
      have hmem :
          (⟨decide (0 < (pivotSearch N (gjLoop N eps a b n).amat (gjLoop N eps a b n).ipiv).1),
            gjMaxr N (gjLoop N eps a b n), gjMaxc N (gjLoop N eps a b n),
            gjPiv N (gjLoop N eps a b n)⟩ : GJRec) ∈ (gjLoop N eps a b (n + 1)).steps := by
        show _ ∈ (gjStep N eps (gjLoop N eps a b n)).steps
        rw [hstep]
        exact List.mem_append_right _ (List.mem_singleton.mpr rfl)
      have hfnd : 0 < (pivotSearch N (gjLoop N eps a b n).amat (gjLoop N eps a b n).ipiv).1 :=
        of_decide_eq_true (hfound _ hmem)
      have hfoundn : ∀ q ∈ (gjLoop N eps a b n).steps, q.found = true := by
        intro q hq
        apply hfound
        show q ∈ (gjStep N eps (gjLoop N eps a b n)).steps
        rw [hstep]
        exact List.mem_append_left _ hq
      exact GJInv_step N eps a n (gjLoop N eps a b n) heps (ih hokn hfoundn) hfnd hlt

/-- C1 (amended): whenever the Gauss-Jordan loop inside the generic `inverse`
runs to completion — every pivot search found a strictly positive candidate and
every chosen pivot passed the epsilon guard — the returned matrix is an exact
right inverse of the input on the N×N grid: `A * inverse(A) = I` in exact
arithmetic.  The success condition the code actually tests is on the individual
pivots, not on the determinant: an ill-scaled non-singular matrix with
`|det| > 1e-6` can still fail (see `C1_counterexample`). -/
theorem C1_inverse_correct (N : ℕ) (eps : ℚ) (a : Mtx) (heps : 0 < eps)
    (hfound : ∀ q ∈ (gjLoop N eps a (fun _ _ => 0) N).steps, q.found = true)
    (hok : (gjLoop N eps a (fun _ _ => 0) N).ok = true) :
    ∀ i < N, ∀ j < N, matMul N a (inverseN N eps a) i j = idm i j := by
  have inv := GJInv_loop N eps a (fun _ _ => 0) heps N hok hfound
  have hall : ∀ j < N, (gjLoop N eps a (fun _ _ => 0) N).ipiv j = 1 := by
    intro j hj
    rw [inv.ipivS j]
    have hlen : (List.map GJRec.maxc (gjLoop N eps a (fun _ _ => 0) N).steps).length = N := by
      rw [List.length_map, inv.slen]
    have hsub : (List.map GJRec.maxc (gjLoop N eps a (fun _ _ => 0) N).steps).toFinset
        ⊆ Finset.range N := by
      intro x hx
      rw [List.mem_toFinset] at hx
      rw [Finset.mem_range]
      obtain ⟨q, hq, hqx⟩ := List.mem_map.mp hx
      exact hqx ▸ (inv.bnd q hq).2
    have hcard : (List.map GJRec.maxc (gjLoop N eps a (fun _ _ => 0) N).steps).toFinset.card
        = N := by
      rw [List.toFinset_card_of_nodup inv.nodup, hlen]
    have heq : (List.map GJRec.maxc (gjLoop N eps a (fun _ _ => 0) N).steps).toFinset
        = Finset.range N :=
      Finset.eq_of_subset_of_card_le hsub (by rw [hcard, Finset.card_range])
    have hmem : j ∈ List.map GJRec.maxc (gjLoop N eps a (fun _ _ => 0) N).steps := by
      rw [← List.mem_toFinset, heq, Finset.mem_range]
      exact hj
    rw [if_pos hmem]
  have hres : ∀ i < N, ∀ j < N,
      inverseN N eps a i j
        = (replayCD a (gjLoop N eps a (fun _ _ => 0) N).steps).2 i j := by
    intro i hi j hj
    show (gjFinish (gjLoop N eps a (fun _ _ => 0) N)).amat i j = _
    unfold gjFinish
    rw [if_pos hok]
    dsimp only
    rw [gjUnscramble_apply]
    have hpsi : psiOf (gjLoop N eps a (fun _ _ => 0) N).steps j < N := psiOf_lt inv.bnd hj
    rw [inv.pivd i hi _ hpsi (hall _ hpsi), pi_psi]
  have hDA : toM N (replayCD a (gjLoop N eps a (fun _ _ => 0) N).steps).2 * toM N a = 1 := by
    ext i k
    rw [Matrix.mul_apply]
    have hconv : ∑ m : Fin N,
        toM N (replayCD a (gjLoop N eps a (fun _ _ => 0) N).steps).2 i m * toM N a m k
        = sumTo N (fun m =>
            (replayCD a (gjLoop N eps a (fun _ _ => 0) N).steps).2 i.val m * a m k.val) := by
      rw [sumTo_eq_sum]
      exact Fin.sum_univ_eq_sum_range
        (fun m => (replayCD a (gjLoop N eps a (fun _ _ => 0) N).steps).2 i.val m * a m k.val) N
    rw [hconv]
    have h1 : sumTo N (fun m =>
        (replayCD a (gjLoop N eps a (fun _ _ => 0) N).steps).2 i.val m * a m k.val)
        = (replayCD a (gjLoop N eps a (fun _ _ => 0) N).steps).1 i.val k.val :=
      (inv.prodI i.val i.isLt k.val).symm
    rw [h1, inv.unitC i.val i.isLt k.val k.isLt (hall k.val k.isLt), Matrix.one_apply]
    by_cases h : i = k
    · rw [if_pos (show i.val = k.val by rw [h]), if_pos h]
    · rw [if_neg (fun hv => h (Fin.ext hv)), if_neg h]
  have hAD : toM N a * toM N (replayCD a (gjLoop N eps a (fun _ _ => 0) N).steps).2 = 1 :=
    Matrix.mul_eq_one_comm.mp hDA
  intro i hi j hj
  have h2 : matMul N a (inverseN N eps a) i j
      = matMul N a (replayCD a (gjLoop N eps a (fun _ _ => 0) N).steps).2 i j := by
    show sumTo N (fun k => a i k * inverseN N eps a k j)
        = sumTo N (fun k => a i k * (replayCD a (gjLoop N eps a (fun _ _ => 0) N).steps).2 k j)
    apply sumTo_congr
    intro k hk
    rw [hres k hk j hj]
  rw [h2]
  have h3 : (toM N a * toM N (replayCD a (gjLoop N eps a (fun _ _ => 0) N).steps).2)
      ⟨i, hi⟩ ⟨j, hj⟩ = (1 : Matrix (Fin N) (Fin N) ℚ) ⟨i, hi⟩ ⟨j, hj⟩ := by
    rw [hAD]
  rw [Matrix.mul_apply, Matrix.one_apply] at h3
  have hconv2 : ∑ m : Fin N, toM N a ⟨i, hi⟩ m
      * toM N (replayCD a (gjLoop N eps a (fun _ _ => 0) N).steps).2 m ⟨j, hj⟩
      = sumTo N (fun m =>
          a i m * (replayCD a (gjLoop N eps a (fun _ _ => 0) N).steps).2 m j) := by
    rw [sumTo_eq_sum]
    exact Fin.sum_univ_eq_sum_range
      (fun m => a i m * (replayCD a (gjLoop N eps a (fun _ _ => 0) N).steps).2 m j) N
  rw [hconv2] at h3
  show sumTo N (fun m =>
      a i m * (replayCD a (gjLoop N eps a (fun _ _ => 0) N).steps).2 m j) = idm i j
  rw [h3]
  show (if (⟨i, hi⟩ : Fin N) = ⟨j, hj⟩ then (1 : ℚ) else 0) = if i = j then (1 : ℚ) else 0
  by_cases h : i = j
  · rw [if_pos (Fin.ext h), if_pos h]
  · rw [if_neg (fun hf => h (congrArg Fin.val hf)), if_neg h]

theorem C1_inverse_correct_witness :
    matMul 2 (fun i j => if i = 0 ∧ j = 0 then (2 : ℚ) else if i = 1 ∧ j = 1 then 4 else 0)
      (inverseN 2 epsD
        (fun i j => if i = 0 ∧ j = 0 then (2 : ℚ) else if i = 1 ∧ j = 1 then 4 else 0))
      0 0 = idm 0 0 := by
  have hsteps : (gjLoop 2 epsD
      (fun i j => if i = 0 ∧ j = 0 then (2 : ℚ) else if i = 1 ∧ j = 1 then 4 else 0)
      (fun _ _ => 0) 2).steps
      = [⟨true, 1, 1, 4⟩, ⟨true, 0, 0, 2⟩] := by
    norm_num [gjLoop, gjStep, gjA3, gjB3, gjA2, gjB2, gjA1, gjB1, gjPiv, gjMaxr, gjMaxc,
      pivotSearch, swap_rows, swapFn, epsD, abs_of_nonneg, List.range_succ]
  have hok : (gjLoop 2 epsD
      (fun i j => if i = 0 ∧ j = 0 then (2 : ℚ) else if i = 1 ∧ j = 1 then 4 else 0)
      (fun _ _ => 0) 2).ok = true := by
    norm_num [gjLoop, gjStep, gjA3, gjB3, gjA2, gjB2, gjA1, gjB1, gjPiv, gjMaxr, gjMaxc,
      pivotSearch, swap_rows, swapFn, epsD, abs_of_nonneg, List.range_succ]
  exact C1_inverse_correct 2 epsD _ (by norm_num [epsD])
    (by
      intro q hq
      rw [hsteps] at hq
      rcases List.mem_cons.mp hq with h | hq2
      · rw [h]
      · rcases List.mem_cons.mp hq2 with h | hq3
        · rw [h]
        · exact absurd hq3 (List.not_mem_nil q))
    hok 0 (by norm_num) 0 (by norm_num)
